import Mathlib

/-!
Verification development for the day/night image classifier
(`classify_nuImages.py`).  The script's logical core is embedded shallowly:

* the hour extraction `int(file_name.split('-')[4][:2])` (line 82) becomes
  `extractHour?`, with `none` modelling the exception that aborts the run;
* the categorization loop (lines 80-83) becomes `buildFilesDict`;
* `distribute_files` (lines 86-127) becomes `distribute_files`, with Python
  dicts modelled as insertion-ordered association lists, `random.choice`
  modelled by an oracle stream of numbers (every realizable sequence of random
  draws corresponds to some oracle), and the `while` loop at line 114 run on
  explicit fuel, `none` modelling a call that never returns normally;
* the in-place mutation of the caller's `hours` list (`hours.remove(hour)`,
  line 109) is visible as the third component of the returned triple;
* the "daynight" full-copy branch (lines 148-154) and the report total at
  line 169 become `fullCopyDest` and `totalDaytimeImages`.
-/

namespace Classify

/-- Splits a character list at every dash, mirroring Python `str.split('-')`:
`splitDash "".data = [[]]`, and the number of fields is one more than the
number of dashes. -/
def splitDash : List Char → List (List Char)
  | [] => [[]]
  | c :: cs =>
    if c = '-' then [] :: splitDash cs
    else
      match splitDash cs with
      | [] => [[c]]
      | w :: ws => (c :: w) :: ws

/-- Decimal digit test by code point (48-57). -/
def isDigitChar (c : Char) : Bool := decide (48 ≤ c.toNat ∧ c.toNat ≤ 57)

/-- Decimal value of a digit string. -/
def digitsVal (cs : List Char) : Nat := cs.foldl (fun a c => a * 10 + (c.toNat - 48)) 0

/-- The ASCII characters Python `int()` strips around a number: tab, newline,
vertical tab, form feed, carriage return and space (code points 9-13 and 32;
the file separators 28-31 are not stripped and raise `ValueError`). -/
def isPySpace (c : Char) : Bool :=
  decide ((9 ≤ c.toNat ∧ c.toNat ≤ 13) ∨ c.toNat = 32)

/-- Strip the surrounding whitespace Python `int()` ignores. -/
def stripSpaces (cs : List Char) : List Char :=
  ((cs.dropWhile isPySpace).reverse.dropWhile isPySpace).reverse

/-- Strip one optional leading plus sign, as Python `int()` does after the
whitespace.  A minus sign never occurs here: the argument is a slice of a
dash-split field, which by construction contains no dash. -/
def stripSign (cs : List Char) : List Char :=
  match cs with
  | [] => []
  | c :: rest => if c = '+' then rest else c :: rest

/-- Models Python `int(s)` on the at-most-two-character ASCII slices taken by
the script: surrounding whitespace and one optional `+` sign are stripped and
a nonempty string of ASCII decimal digits must remain; `none` models the
raised `ValueError`.  Non-ASCII decimal digits, which `int()` also accepts,
are outside the modelled alphabet; a minus sign cannot reach it (dash-split
fields contain no dash), and underscores never parse at this slice length. -/
def parseDecimal? (cs : List Char) : Option Nat :=
  let t := stripSign (stripSpaces cs)
  if t ≠ [] ∧ t.all isDigitChar then some (digitsVal t) else none

/-- Models line 82, `int(file_name.split('-')[4][:2])`.  `none` models the
exception (`IndexError` when there are fewer than 5 fields, `ValueError` when
the 2-character slice does not parse), which aborts the whole run. -/
def extractHour? (fileName : String) : Option Nat :=
  match (splitDash fileName.data)[4]? with
  | none => none
  | some field => parseDecimal? (field.take 2)

/-- Python dict `{hour: list of file names}` as an insertion-ordered association list. -/
abbrev FilesDict := List (Nat × List String)

/-- Python dict `{hour: count}` as an insertion-ordered association list. -/
abbrev CntMap := List (Nat × Nat)

/-- `files_dict.get(hour, [])`. -/
def dictGet : FilesDict → Nat → List String
  | [], _ => []
  | (k, v) :: d, h => if k = h then v else dictGet d h

/-- `files_dict[hour] = v`: replace in place when the key is present, append otherwise. -/
def dictSet : FilesDict → Nat → List String → FilesDict
  | [], h, v => [(h, v)]
  | (k, w) :: d, h, v => if k = h then (h, v) :: d else (k, w) :: dictSet d h v

/-- `m.get(hour, 0)`. -/
def cntGet : CntMap → Nat → Nat
  | [], _ => 0
  | (k, v) :: d, h => if k = h then v else cntGet d h

/-- `m[hour] = v`: replace in place when the key is present, append otherwise. -/
def cntSet : CntMap → Nat → Nat → CntMap
  | [], h, v => [(h, v)]
  | (k, w) :: d, h, v => if k = h then (h, v) :: d else (k, w) :: cntSet d h v

/-- The keys of a counts dict, in insertion order. -/
def cntKeys (d : CntMap) : List Nat := d.map Prod.fst

/-- `sum(m.values())`. -/
def sumValues (d : CntMap) : Nat := (d.map Prod.snd).sum

/-- The categorization loop of lines 80-83, folded over the file list in order;
`none` models the exception aborting the run on the first unparsable name. -/
def buildFilesDictAux : List String → FilesDict → Option FilesDict
  | [], d => some d
  | f :: fs, d =>
    match extractHour? f with
    | none => none
    | some h => buildFilesDictAux fs (dictSet d h (dictGet d h ++ [f]))

/-- `files_dict` as built from `all_files` (lines 80-83). -/
def buildFilesDict (allFiles : List String) : Option FilesDict :=
  buildFilesDictAux allFiles []

/-- Line 36: `DAY_HOURS = list(range(6, 18))`. -/
def DAY_HOURS : List Nat := List.range' 6 12

/-- Line 37: `NIGHT_HOURS = [i for i in range(24) if i not in DAY_HOURS]`. -/
def NIGHT_HOURS : List Nat := (List.range 24).filter (fun i => decide (i ∉ DAY_HOURS))

/-- Line 88: `counts = {hour: len(files_dict.get(hour, [])) for hour in hours}`. -/
def buildCounts (fd : FilesDict) (hours : List Nat) : CntMap :=
  hours.foldl (fun d h => cntSet d h (dictGet fd h).length) []

/-- Line 91: `total_available_files = sum(counts.values())`. -/
def totalAvailable (fd : FilesDict) (hours : List Nat) : Nat :=
  sumValues (buildCounts fd hours)

/-- Lines 92-93: the requested total after the clamp to the available total. -/
def clampedTarget (fd : FilesDict) (hours : List Nat) (t : Int) : Int :=
  if (totalAvailable fd hours : Int) < t then (totalAvailable fd hours : Int) else t

/-- Line 97: `average_files = total_files_required // len(hours)`, computed once,
on the clamped target and the original bucket count (`Int.fdiv` is Python's
floor division). -/
def average_files (fd : FilesDict) (hours : List Nat) (t : Int) : Int :=
  (clampedTarget fd hours t).fdiv (hours.length : Int)

/-- The mutable state of `distribute_files`: the growing `selected_files` and
`selection_count_per_hour`, the (mutated) `hours` list, the remaining
`total_files_required`, and a counter numbering the `random.choice` calls. -/
@[ext]
structure DState where
  selected : List String
  cnt : CntMap
  hours : List Nat
  required : Int
  step : Nat
deriving Repr, DecidableEq

/-- State at the top of `distribute_files`, after the clamp. -/
def initState (hours : List Nat) (req : Int) : DState :=
  { selected := [], cnt := [], hours := hours, required := req, step := 0 }

/-- Fairness pass, lines 105-111: iterate over the entries of `counts`; a bucket
whose size is at most `avg` is taken whole, recorded, removed from the `hours`
list in place, and subtracted from the remaining requirement.  `avg` was computed
once before the loop and is never updated. -/
def fairnessPass (fd : FilesDict) (avg : Int) : CntMap → DState → DState
  | [], st => st
  | (h, c) :: rest, st =>
    if (c : Int) ≤ avg then
      fairnessPass fd avg rest
        { st with
          selected := st.selected ++ dictGet fd h
          cnt := cntSet st.cnt h c
          hours := st.hours.erase h
          required := st.required - (c : Int) }
    else fairnessPass fd avg rest st

/-- Line 118: `[f for f in files_dict[hour] if f not in selected_files]`. -/
def availableFiles (fd : FilesDict) (sel : List String) (h : Nat) : List String :=
  (dictGet fd h).filter (fun f => decide (f ∉ sel))

/-- `random.choice(l)` with the draw supplied by the oracle value `k`. -/
def chooseFrom (k : Nat) (l : List String) : String :=
  l.getD (k % l.length) ""

/-- One pass of the `for hour in hours` loop inside the while loop
(lines 115-123), over a snapshot of the hours list (which the greedy pass never
mutates): stop at the `break` when the requirement is met, otherwise pick one
not-yet-selected file of the bucket when there is one. -/
def greedySweep (fd : FilesDict) (oracle : Nat → Nat) : List Nat → DState → DState
  | [], st => st
  | h :: rest, st =>
    if st.required ≤ 0 then st
    else
      let avail := availableFiles fd st.selected h
      if avail = [] then greedySweep fd oracle rest st
      else
        greedySweep fd oracle rest
          { st with
            selected := st.selected ++ [chooseFrom (oracle st.step) avail]
            cnt := cntSet st.cnt h (cntGet st.cnt h + 1)
            required := st.required - 1
            step := st.step + 1 }

/-- The `while total_files_required > 0 and hours` loop (line 114), with explicit
fuel bounding the number of iterations; `none` means the fuel ran out while the
loop condition still held, i.e. the loop had not yet exited. -/
def greedyLoop (fd : FilesDict) (oracle : Nat → Nat) : Nat → DState → Option DState
  | 0, st => if 0 < st.required ∧ st.hours ≠ [] then none else some st
  | fuel + 1, st =>
    if 0 < st.required ∧ st.hours ≠ [] then
      greedyLoop fd oracle fuel (greedySweep fd oracle st.hours st)
    else some st

/-- `distribute_files` (lines 86-127).  A `none` result models a call that does
not return normally: the `ZeroDivisionError` at line 97 when `hours` is empty,
or a fill loop that never exits (fuel exhausted with the loop condition still
true).  The third component of the result is the final contents of the
caller-supplied `hours` list, which the function mutates in place. -/
def distribute_files (fd : FilesDict) (oracle : Nat → Nat) (fuel : Nat)
    (hours : List Nat) (totalFilesRequired : Int) :
    Option (List String × CntMap × List Nat) :=
  if hours = [] then none
  else
    (greedyLoop fd oracle fuel
        (fairnessPass fd (average_files fd hours totalFilesRequired)
          (buildCounts fd hours)
          (initState hours (clampedTarget fd hours totalFilesRequired)))).map
      (fun st => (st.selected, st.cnt, st.hours))

/-- Modelled from the spec: the alternative reading of step 2 in which the
average is recomputed from the current remaining requirement and the remaining
bucket count (`number_of_buckets_remaining`) at every entry of the fairness
pass.  It exists only to contrast with the source's single stale average. -/
def fairnessPassRecompute (fd : FilesDict) : CntMap → DState → DState
  | [], st => st
  | (h, c) :: rest, st =>
    if (c : Int) ≤ st.required.fdiv (st.hours.length : Int) then
      fairnessPassRecompute fd rest
        { st with
          selected := st.selected ++ dictGet fd h
          cnt := cntSet st.cnt h c
          hours := st.hours.erase h
          required := st.required - (c : Int) }
    else fairnessPassRecompute fd rest st

/-- Modelled from the spec: `distribute_files` with the recomputed-average
fairness pass substituted; used only to contrast with `distribute_files`. -/
def distribute_files_recompute (fd : FilesDict) (oracle : Nat → Nat) (fuel : Nat)
    (hours : List Nat) (totalFilesRequired : Int) :
    Option (List String × CntMap × List Nat) :=
  if hours = [] then none
  else
    (greedyLoop fd oracle fuel
        (fairnessPassRecompute fd
          (buildCounts fd hours)
          (initState hours (clampedTarget fd hours totalFilesRequired)))).map
      (fun st => (st.selected, st.cnt, st.hours))

/-- The "daynight" full-copy branch (lines 148-154): which subdirectory a file
is copied to, `some true` for `full/daytime`, `some false` for `full/nighttime`,
decided by membership of the re-extracted hour in the (possibly mutated)
`DAY_HOURS` list; `none` models the exception on an unparsable name. -/
def fullCopyDest (dayHours : List Nat) (f : String) : Option Bool :=
  (extractHour? f).map (fun h => decide (h ∈ dayHours))

/-- Line 169: `total_daytime_images = sum(len(files_dict.get(hour, [])) for hour
in DAY_HOURS)`, evaluated on whatever the `DAY_HOURS` list contains after the
distribution calls. -/
def totalDaytimeImages (fd : FilesDict) (dayHours : List Nat) : Nat :=
  (dayHours.map (fun h => (dictGet fd h).length)).sum

/-- Pairwise disjointness of the buckets of the keys in `hours`: no file name
occurs under two different keys of the group. -/
def PairwiseDisjoint (fd : FilesDict) (hours : List Nat) : Prop :=
  ∀ h ∈ hours, ∀ h' ∈ hours, h ≠ h' → ∀ f ∈ dictGet fd h, f ∉ dictGet fd h'

instance (fd : FilesDict) (hours : List Nat) : Decidable (PairwiseDisjoint fd hours) := by
  unfold PairwiseDisjoint; infer_instance

/-- Every bucket of the group is duplicate-free. -/
def NodupBuckets (fd : FilesDict) (hours : List Nat) : Prop :=
  ∀ h ∈ hours, (dictGet fd h).Nodup

instance (fd : FilesDict) (hours : List Nat) : Decidable (NodupBuckets fd hours) := by
  unfold NodupBuckets; infer_instance

/-! ### Association-list lemmas -/

theorem cntKeys_nil : cntKeys [] = [] := rfl

theorem cntKeys_cons (p : Nat × Nat) (d : CntMap) : cntKeys (p :: d) = p.1 :: cntKeys d := rfl

theorem sumValues_nil : sumValues [] = 0 := rfl

theorem sumValues_cons (p : Nat × Nat) (d : CntMap) :
    sumValues (p :: d) = p.2 + sumValues d := by
  simp [sumValues]

theorem cntGet_cntSet_self (d : CntMap) (h : Nat) (v : Nat) :
    cntGet (cntSet d h v) h = v := by
  induction d with
  | nil => simp [cntSet, cntGet]
  | cons p d ih =>
    obtain ⟨k, w⟩ := p
    by_cases hk : k = h <;> simp [cntSet, cntGet, hk, ih]

theorem cntGet_cntSet_other (d : CntMap) {h h' : Nat} (hne : h ≠ h') (v : Nat) :
    cntGet (cntSet d h v) h' = cntGet d h' := by
  induction d with
  | nil => simp [cntSet, cntGet, hne]
  | cons p d ih =>
    obtain ⟨k, w⟩ := p
    by_cases hk : k = h
    · subst hk; simp [cntSet, cntGet, hne]
    · simp [cntSet, cntGet, hk, ih]

theorem cntSet_of_not_mem_keys {d : CntMap} {h : Nat} (hh : h ∉ cntKeys d) (v : Nat) :
    cntSet d h v = d ++ [(h, v)] := by
  induction d with
  | nil => simp [cntSet]
  | cons p d ih =>
    obtain ⟨k, w⟩ := p
    simp only [cntKeys, List.map_cons, List.mem_cons] at hh
    push_neg at hh
    simp [cntSet, Ne.symm hh.1, ih (by simpa [cntKeys] using hh.2)]

theorem cntKeys_cntSet_subset (d : CntMap) (h : Nat) (v : Nat) :
    cntKeys (cntSet d h v) ⊆ cntKeys d ++ [h] := by
  induction d with
  | nil => simp [cntSet, cntKeys]
  | cons p d ih =>
    obtain ⟨k, w⟩ := p
    intro x hx
    by_cases hk : k = h
    · subst hk
      simp only [cntSet, if_pos, cntKeys_cons, List.mem_cons] at hx
      simp only [cntKeys_cons, List.cons_append, List.mem_cons]
      rcases hx with hx | hx
      · exact Or.inl hx
      · exact Or.inr (List.mem_append_left _ hx)
    · simp only [cntSet, if_neg hk, cntKeys_cons, List.mem_cons] at hx
      simp only [cntKeys_cons, List.cons_append, List.mem_cons]
      rcases hx with hx | hx
      · exact Or.inl hx
      · exact Or.inr (ih hx)

theorem mem_cntKeys_cntSet (d : CntMap) (h : Nat) (v : Nat) :
    h ∈ cntKeys (cntSet d h v) := by
  induction d with
  | nil => simp [cntSet, cntKeys]
  | cons p d ih =>
    obtain ⟨k, w⟩ := p
    by_cases hk : k = h
    · subst hk; simp [cntSet, cntKeys_cons]
    · simp only [cntSet, if_neg hk, cntKeys_cons, List.mem_cons]
      exact Or.inr ih

theorem mem_cntKeys_cntSet_of_mem (d : CntMap) {h' : Nat} (h v : Nat)
    (hm : h' ∈ cntKeys d) : h' ∈ cntKeys (cntSet d h v) := by
  induction d with
  | nil => simp [cntKeys] at hm
  | cons p d ih =>
    obtain ⟨k, w⟩ := p
    simp only [cntKeys_cons, List.mem_cons] at hm
    by_cases hk : k = h
    · subst hk
      simpa [cntSet, cntKeys_cons] using hm
    · simp only [cntSet, if_neg hk, cntKeys_cons, List.mem_cons]
      rcases hm with hm | hm
      · exact Or.inl hm
      · exact Or.inr (ih hm)

theorem cntKeys_cntSet_nodup {d : CntMap} (hd : (cntKeys d).Nodup) (h : Nat) (v : Nat) :
    (cntKeys (cntSet d h v)).Nodup := by
  induction d with
  | nil => simp [cntSet, cntKeys]
  | cons p d ih =>
    obtain ⟨k, w⟩ := p
    simp only [cntKeys_cons, List.nodup_cons] at hd
    by_cases hk : k = h
    · subst hk
      simp only [cntSet, if_pos, cntKeys_cons, List.nodup_cons]
      exact hd
    · simp only [cntSet, if_neg hk, cntKeys_cons, List.nodup_cons]
      refine ⟨?_, ih hd.2⟩
      intro hmem
      have hsub := cntKeys_cntSet_subset d h v hmem
      simp only [List.mem_append, List.mem_singleton] at hsub
      rcases hsub with h1 | h1
      · exact hd.1 h1
      · exact hk h1

theorem sumValues_cntSet_succ (d : CntMap) (h : Nat) :
    sumValues (cntSet d h (cntGet d h + 1)) = sumValues d + 1 := by
  induction d with
  | nil => simp [cntSet, cntGet, sumValues]
  | cons p d ih =>
    obtain ⟨k, w⟩ := p
    by_cases hk : k = h
    · subst hk; simp [cntSet, cntGet, sumValues]; omega
    · have hk' : ¬k = h := hk
      simp only [cntSet, cntGet, if_neg hk', sumValues, List.map_cons, List.sum_cons] at ih ⊢
      omega

theorem sumValues_cntSet_fresh {d : CntMap} {h : Nat} (hh : h ∉ cntKeys d) (v : Nat) :
    sumValues (cntSet d h v) = sumValues d + v := by
  rw [cntSet_of_not_mem_keys hh]
  simp [sumValues]

theorem cntGet_mem {d : CntMap} {h : Nat} (hm : h ∈ cntKeys d) :
    (h, cntGet d h) ∈ d := by
  induction d with
  | nil => simp [cntKeys] at hm
  | cons p d ih =>
    obtain ⟨k, w⟩ := p
    simp only [cntKeys, List.map_cons, List.mem_cons] at hm
    by_cases hk : k = h
    · subst hk; simp [cntGet]
    · rcases hm with hm | hm
      · exact absurd hm.symm hk
      · simp only [cntGet, if_neg hk]
        exact List.mem_cons_of_mem _ (ih hm)

theorem cntGet_eq_zero_of_not_mem {d : CntMap} {h : Nat} (hm : h ∉ cntKeys d) :
    cntGet d h = 0 := by
  induction d with
  | nil => simp [cntGet]
  | cons p d ih =>
    obtain ⟨k, w⟩ := p
    simp only [cntKeys, List.map_cons, List.mem_cons] at hm
    push_neg at hm
    simp [cntGet, Ne.symm hm.1, ih hm.2]

theorem length_cntSet_le (d : CntMap) (h : Nat) (v : Nat) :
    (cntSet d h v).length ≤ d.length + 1 := by
  induction d with
  | nil => simp [cntSet]
  | cons p d ih =>
    obtain ⟨k, w⟩ := p
    by_cases hk : k = h
    · simp [cntSet, hk]
    · simp only [cntSet, if_neg hk, List.length_cons]
      omega

theorem sumValues_eq_sum_cntGet {d : CntMap} (hd : (cntKeys d).Nodup) :
    sumValues d = ((cntKeys d).map (cntGet d)).sum := by
  induction d with
  | nil => simp [sumValues, cntKeys]
  | cons p d ih =>
    obtain ⟨k, w⟩ := p
    simp only [cntKeys_cons, List.nodup_cons] at hd
    have hrest : (cntKeys d).map (cntGet ((k, w) :: d)) = (cntKeys d).map (cntGet d) := by
      apply List.map_congr_left
      intro x hx
      have hkx : ¬k = x := fun hkx => hd.1 (hkx ▸ hx)
      simp [cntGet, hkx]
    have hk : cntGet ((k, w) :: d) k = w := by simp [cntGet]
    calc sumValues ((k, w) :: d) = w + sumValues d := by simp [sumValues_cons]
      _ = w + ((cntKeys d).map (cntGet d)).sum := by rw [ih hd.2]
      _ = ((cntKeys ((k, w) :: d)).map (cntGet ((k, w) :: d))).sum := by
            simp only [cntKeys_cons, List.map_cons, List.sum_cons, hk, hrest]

theorem sum_nat_le_of_sublist {a b : List Nat} (hab : a.Sublist b) : a.sum ≤ b.sum := by
  induction hab with
  | slnil => simp
  | cons x _ ih => simp only [List.sum_cons]; omega
  | cons₂ x _ ih => simp only [List.sum_cons]; omega

/-- Sums of a function over nodup index lists are monotone under inclusion. -/
theorem sum_map_le_of_subset {l₁ l₂ : List Nat} (g : Nat → Nat)
    (hnd : l₁.Nodup) (hsub : l₁ ⊆ l₂) :
    (l₁.map g).sum ≤ (l₂.map g).sum := by
  obtain ⟨l, hperm, hsl⟩ := List.subperm_of_subset hnd hsub
  calc (l₁.map g).sum = (l.map g).sum := ((hperm.map g).sum_eq).symm
    _ ≤ (l₂.map g).sum := sum_nat_le_of_sublist (hsl.map g)

/-! ### Bucket dictionary lemmas -/

theorem dictGet_dictSet_self (d : FilesDict) (h : Nat) (v : List String) :
    dictGet (dictSet d h v) h = v := by
  induction d with
  | nil => simp [dictSet, dictGet]
  | cons p d ih =>
    obtain ⟨k, w⟩ := p
    by_cases hk : k = h <;> simp [dictSet, dictGet, hk, ih]

theorem dictGet_dictSet_other (d : FilesDict) {h h' : Nat} (hne : h ≠ h') (v : List String) :
    dictGet (dictSet d h v) h' = dictGet d h' := by
  induction d with
  | nil => simp [dictSet, dictGet, hne]
  | cons p d ih =>
    obtain ⟨k, w⟩ := p
    by_cases hk : k = h
    · subst hk; simp [dictSet, dictGet, hne]
    · simp [dictSet, dictGet, hk, ih]

/-! ### Lemmas about `buildCounts` -/

theorem mem_cntSet (d : CntMap) (h v : Nat) :
    ∀ p ∈ cntSet d h v, p ∈ d ∨ p = (h, v) := by
  induction d with
  | nil => simp [cntSet]
  | cons q d ih =>
    obtain ⟨k, w⟩ := q
    intro p hp
    by_cases hk : k = h
    · subst hk
      simp only [cntSet, if_pos, List.mem_cons] at hp
      rcases hp with hp | hp
      · exact Or.inr hp
      · exact Or.inl (List.mem_cons_of_mem _ hp)
    · simp only [cntSet, if_neg hk, List.mem_cons] at hp
      rcases hp with hp | hp
      · exact Or.inl (by simp [hp])
      · rcases ih p hp with h1 | h1
        · exact Or.inl (List.mem_cons_of_mem _ h1)
        · exact Or.inr h1

theorem cntKeys_append (d e : CntMap) : cntKeys (d ++ e) = cntKeys d ++ cntKeys e := by
  simp [cntKeys]

theorem buildCounts_entries (fd : FilesDict) (hours : List Nat) :
    ∀ p ∈ buildCounts fd hours, p.2 = (dictGet fd p.1).length := by
  have key : ∀ (hs : List Nat) (d : CntMap),
      (∀ p ∈ d, p.2 = (dictGet fd p.1).length) →
      ∀ p ∈ hs.foldl (fun d h => cntSet d h (dictGet fd h).length) d,
        p.2 = (dictGet fd p.1).length := by
    intro hs
    induction hs with
    | nil => intro d hd p hp; exact hd p hp
    | cons h hs ih =>
      intro d hd p hp
      refine ih _ ?_ p hp
      intro q hq
      rcases mem_cntSet d h _ q hq with h1 | h1
      · exact hd q h1
      · simp [h1]
  intro p hp
  exact key hours [] (by simp) p hp

theorem buildCounts_keys_subset (fd : FilesDict) (hours : List Nat) :
    cntKeys (buildCounts fd hours) ⊆ hours := by
  have key : ∀ (hs : List Nat) (d : CntMap),
      cntKeys (hs.foldl (fun d h => cntSet d h (dictGet fd h).length) d) ⊆ cntKeys d ++ hs := by
    intro hs
    induction hs with
    | nil => intro d; simp
    | cons h hs ih =>
      intro d
      intro x hx
      have h1 := ih (cntSet d h (dictGet fd h).length) hx
      simp only [List.mem_append] at h1 ⊢
      rcases h1 with h1 | h1
      · have h2 := cntKeys_cntSet_subset d h _ h1
        simp only [List.mem_append, List.mem_singleton] at h2
        rcases h2 with h2 | h2
        · exact Or.inl h2
        · exact Or.inr (by simp [h2])
      · exact Or.inr (List.mem_cons_of_mem _ h1)
  intro x hx
  have := key hours [] hx
  simpa [cntKeys] using this

theorem buildCounts_keys_nodup (fd : FilesDict) (hours : List Nat) :
    (cntKeys (buildCounts fd hours)).Nodup := by
  have key : ∀ (hs : List Nat) (d : CntMap), (cntKeys d).Nodup →
      (cntKeys (hs.foldl (fun d h => cntSet d h (dictGet fd h).length) d)).Nodup := by
    intro hs
    induction hs with
    | nil => intro d hd; exact hd
    | cons h hs ih => intro d hd; exact ih _ (cntKeys_cntSet_nodup hd h _)
  exact key hours [] (by simp [cntKeys])

theorem mem_buildCounts_keys (fd : FilesDict) {hours : List Nat} {h : Nat}
    (hm : h ∈ hours) : h ∈ cntKeys (buildCounts fd hours) := by
  have key : ∀ (hs : List Nat) (d : CntMap), h ∈ cntKeys d ∨ h ∈ hs →
      h ∈ cntKeys (hs.foldl (fun d h => cntSet d h (dictGet fd h).length) d) := by
    intro hs
    induction hs with
    | nil => intro d hd; simpa using hd
    | cons h' hs ih =>
      intro d hd
      rcases hd with hd | hd
      · exact ih _ (Or.inl (mem_cntKeys_cntSet_of_mem d h' _ hd))
      · rcases List.mem_cons.mp hd with hd | hd
        · subst hd; exact ih _ (Or.inl (mem_cntKeys_cntSet d h _))
        · exact ih _ (Or.inr hd)
  exact key hours [] (Or.inr hm)

theorem buildCounts_length_le (fd : FilesDict) (hours : List Nat) :
    (buildCounts fd hours).length ≤ hours.length := by
  have key : ∀ (hs : List Nat) (d : CntMap),
      (hs.foldl (fun d h => cntSet d h (dictGet fd h).length) d).length ≤ d.length + hs.length := by
    intro hs
    induction hs with
    | nil => intro d; simp
    | cons h hs ih =>
      intro d
      have h1 := ih (cntSet d h (dictGet fd h).length)
      have h2 := length_cntSet_le d h (dictGet fd h).length
      simp only [List.length_cons, List.foldl_cons]
      omega
  have := key hours []
  simpa [buildCounts] using this

theorem cntGet_buildCounts (fd : FilesDict) {hours : List Nat} {h : Nat} (hm : h ∈ hours) :
    cntGet (buildCounts fd hours) h = (dictGet fd h).length := by
  have h1 := cntGet_mem (mem_buildCounts_keys fd hm)
  have h2 := buildCounts_entries fd hours _ h1
  exact h2

theorem buildCounts_eq_map (fd : FilesDict) {hours : List Nat} (hnd : hours.Nodup) :
    buildCounts fd hours = hours.map (fun h => (h, (dictGet fd h).length)) := by
  have key : ∀ (hs : List Nat) (d : CntMap), hs.Nodup → (∀ h ∈ hs, h ∉ cntKeys d) →
      hs.foldl (fun d h => cntSet d h (dictGet fd h).length) d =
        d ++ hs.map (fun h => (h, (dictGet fd h).length)) := by
    intro hs
    induction hs with
    | nil => intro d _ _; simp
    | cons h hs ih =>
      intro d hnd hfresh
      simp only [List.nodup_cons] at hnd
      simp only [List.foldl_cons]
      rw [cntSet_of_not_mem_keys (hfresh h (by simp)) _]
      rw [ih _ hnd.2 ?_]
      · simp
      · intro h' hh'
        rw [cntKeys_append]
        simp only [List.mem_append]
        push_neg
        refine ⟨hfresh h' (List.mem_cons_of_mem _ hh'), ?_⟩
        simp only [cntKeys_cons, cntKeys_nil]
        simp only [List.mem_singleton]
        exact fun he => hnd.1 (he ▸ hh')
  have := key hours [] hnd (by simp [cntKeys])
  simpa [buildCounts] using this

theorem totalAvailable_eq_sum (fd : FilesDict) {hours : List Nat} (hnd : hours.Nodup) :
    totalAvailable fd hours = (hours.map (fun h => (dictGet fd h).length)).sum := by
  rw [totalAvailable, buildCounts_eq_map fd hnd]
  simp only [sumValues, List.map_map]
  rfl

/-! ### Lemmas about `availableFiles` and `chooseFrom` -/

theorem mem_availableFiles {fd : FilesDict} {sel : List String} {h : Nat} {f : String} :
    f ∈ availableFiles fd sel h ↔ f ∈ dictGet fd h ∧ f ∉ sel := by
  simp [availableFiles]

theorem availableFiles_sublist_of_suffix (fd : FilesDict) (sel ext : List String) (h : Nat) :
    (availableFiles fd (sel ++ ext) h).Sublist (availableFiles fd sel h) := by
  apply List.monotone_filter_right
  intro f hf
  simp only [decide_eq_true_eq] at hf ⊢
  intro hmem
  exact hf (List.mem_append_left _ hmem)

theorem availableFiles_length_mono (fd : FilesDict) (sel ext : List String) (h : Nat) :
    (availableFiles fd (sel ++ ext) h).length ≤ (availableFiles fd sel h).length :=
  (availableFiles_sublist_of_suffix fd sel ext h).length_le

theorem filter_not_mem_append_lt {l sel : List String} {f : String}
    (hmem : f ∈ l) (hnot : f ∉ sel) :
    (l.filter (fun g => decide (g ∉ sel ++ [f]))).length <
      (l.filter (fun g => decide (g ∉ sel))).length := by
  induction l with
  | nil => simp at hmem
  | cons x l ih =>
    rcases List.mem_cons.mp hmem with hx | hx
    · subst hx
      have h1 : (decide (f ∉ sel ++ [f])) = false := by simp
      have h2 : (decide (f ∉ sel)) = true := by simpa using hnot
      simp only [List.filter_cons, h1, h2, Bool.false_eq_true, if_true, if_false]
      calc (l.filter (fun g => decide (g ∉ sel ++ [f]))).length
          ≤ (l.filter (fun g => decide (g ∉ sel))).length := by
            apply List.Sublist.length_le
            apply List.monotone_filter_right
            intro g hg
            simp only [decide_eq_true_eq] at hg ⊢
            intro hc
            exact hg (List.mem_append_left _ hc)
        _ < (l.filter (fun g => decide (g ∉ sel))).length + 1 := by omega
    · by_cases hxsel : (decide (x ∉ sel ++ [f])) = true
      · have h2 : (decide (x ∉ sel)) = true := by
          simp only [decide_eq_true_eq] at hxsel ⊢
          intro hc
          exact hxsel (List.mem_append_left _ hc)
        simp only [List.filter_cons, hxsel, h2, if_true]
        have := ih hx
        simpa using Nat.succ_lt_succ this
      · simp only [Bool.not_eq_true] at hxsel
        simp only [List.filter_cons, hxsel, Bool.false_eq_true, if_false]
        by_cases h2 : (decide (x ∉ sel)) = true
        · simp only [h2, if_true]
          have := ih hx
          simp only [List.length_cons]
          omega
        · simp only [Bool.not_eq_true] at h2
          simp only [h2]
          simpa using ih hx

theorem availableFiles_pick_lt {fd : FilesDict} {sel : List String} {h : Nat} {f : String}
    (hmem : f ∈ dictGet fd h) (hnot : f ∉ sel) :
    (availableFiles fd (sel ++ [f]) h).length < (availableFiles fd sel h).length := by
  unfold availableFiles
  exact filter_not_mem_append_lt hmem hnot

theorem filter_not_mem_append_exact {l sel : List String} {f : String}
    (hnd : l.Nodup) (hmem : f ∈ l) (hnot : f ∉ sel) :
    (l.filter (fun g => decide (g ∉ sel ++ [f]))).length + 1 =
      (l.filter (fun g => decide (g ∉ sel))).length := by
  induction l with
  | nil => simp at hmem
  | cons x l ih =>
    simp only [List.nodup_cons] at hnd
    rcases List.mem_cons.mp hmem with hx | hx
    · subst hx
      have h1 : (decide (f ∉ sel ++ [f])) = false := by simp
      have h2 : (decide (f ∉ sel)) = true := by simpa using hnot
      simp only [List.filter_cons, h1, h2, Bool.false_eq_true, if_true, if_false, List.length_cons]
      have hfe : l.filter (fun g => decide (g ∉ sel ++ [f])) = l.filter (fun g => decide (g ∉ sel)) := by
        apply List.filter_congr
        intro g hg
        have hgf : g ≠ f := fun he => hnd.1 (he ▸ hg)
        simp only [decide_eq_decide, List.mem_append, List.mem_singleton]
        constructor
        · intro hc hm
          exact hc (Or.inl hm)
        · intro hc hm
          rcases hm with hm | hm
          · exact hc hm
          · exact hgf hm
      rw [hfe]
    · have hxf : x ≠ f := fun he => hnd.1 (he ▸ hx)
      have heq : (decide (x ∉ sel ++ [f])) = (decide (x ∉ sel)) := by
        simp only [decide_eq_decide, List.mem_append, List.mem_singleton]
        constructor
        · intro hc hm
          exact hc (Or.inl hm)
        · intro hc hm
          rcases hm with hm | hm
          · exact hc hm
          · exact hxf hm
      by_cases h2 : (decide (x ∉ sel)) = true
      · simp only [List.filter_cons, heq, h2, if_true, List.length_cons]
        have := ih hnd.2 hx
        omega
      · simp only [Bool.not_eq_true] at h2
        simp only [List.filter_cons, heq, h2]
        exact ih hnd.2 hx

theorem availableFiles_pick_exact {fd : FilesDict} {sel : List String} {h : Nat} {f : String}
    (hnd : (dictGet fd h).Nodup) (hmem : f ∈ dictGet fd h) (hnot : f ∉ sel) :
    (availableFiles fd (sel ++ [f]) h).length + 1 = (availableFiles fd sel h).length := by
  unfold availableFiles
  exact filter_not_mem_append_exact hnd hmem hnot

theorem availableFiles_unchanged {fd : FilesDict} {sel : List String} {h : Nat} {f : String}
    (hmem : f ∉ dictGet fd h) :
    availableFiles fd (sel ++ [f]) h = availableFiles fd sel h := by
  unfold availableFiles
  apply List.filter_congr
  intro g hg
  have hgf : g ≠ f := fun he => hmem (he ▸ hg)
  simp only [decide_eq_decide, List.mem_append, List.mem_singleton]
  constructor
  · intro hc hm; exact hc (Or.inl hm)
  · intro hc hm; rcases hm with hm | hm
    · exact hc hm
    · exact hgf hm

theorem availableFiles_nil_iff {fd : FilesDict} {sel : List String} {h : Nat} :
    availableFiles fd sel h = [] ↔ ∀ f ∈ dictGet fd h, f ∈ sel := by
  unfold availableFiles
  rw [List.filter_eq_nil_iff]
  constructor
  · intro hc f hf
    have := hc f hf
    simpa using this
  · intro hc f hf
    simpa using hc f hf

theorem chooseFrom_mem {l : List String} (hne : l ≠ []) (k : Nat) : chooseFrom k l ∈ l := by
  unfold chooseFrom
  have hlen : 0 < l.length := List.length_pos.mpr hne
  have hlt : k % l.length < l.length := Nat.mod_lt _ hlen
  rw [List.getD_eq_getElem _ _ hlt]
  exact List.getElem_mem _

/-! ### General lemmas about the fairness pass -/

/-- The entries of a counts dict taken whole by the fairness pass with threshold `avg`. -/
def smallEntries (avg : Int) (L : CntMap) : CntMap :=
  L.filter (fun p => decide ((p.2 : Int) ≤ avg))

/-- Total size removed from the requirement by the fairness pass. -/
def smallSum (avg : Int) (L : CntMap) : Int :=
  ((smallEntries avg L).map (fun p => (p.2 : Int))).sum

theorem smallEntries_nil (avg : Int) : smallEntries avg [] = [] := rfl

theorem smallEntries_cons_small {avg : Int} {h c : Nat} (hc : (c : Int) ≤ avg) (L : CntMap) :
    smallEntries avg ((h, c) :: L) = (h, c) :: smallEntries avg L := by
  simp [smallEntries, List.filter_cons, hc]

theorem smallEntries_cons_big {avg : Int} {h c : Nat} (hc : ¬(c : Int) ≤ avg) (L : CntMap) :
    smallEntries avg ((h, c) :: L) = smallEntries avg L := by
  simp [smallEntries, List.filter_cons, hc]

theorem fairnessPass_required (fd : FilesDict) (avg : Int) :
    ∀ (L : CntMap) (st : DState),
      (fairnessPass fd avg L st).required = st.required - smallSum avg L := by
  intro L
  induction L with
  | nil => intro st; simp [fairnessPass, smallSum, smallEntries]
  | cons p L ih =>
    intro st
    obtain ⟨h, c⟩ := p
    by_cases hc : (c : Int) ≤ avg
    · simp only [fairnessPass, if_pos hc]
      rw [ih]
      simp only [smallSum, smallEntries_cons_small hc, List.map_cons, List.sum_cons]
      ring
    · simp only [fairnessPass, if_neg hc]
      rw [ih]
      simp only [smallSum, smallEntries_cons_big hc]

theorem fairnessPass_selected (fd : FilesDict) (avg : Int) :
    ∀ (L : CntMap) (st : DState),
      (fairnessPass fd avg L st).selected =
        st.selected ++ ((smallEntries avg L).map (fun p => dictGet fd p.1)).flatten := by
  intro L
  induction L with
  | nil => intro st; simp [fairnessPass, smallEntries]
  | cons p L ih =>
    intro st
    obtain ⟨h, c⟩ := p
    by_cases hc : (c : Int) ≤ avg
    · simp only [fairnessPass, if_pos hc]
      rw [ih]
      simp [smallEntries_cons_small hc]
    · simp only [fairnessPass, if_neg hc]
      rw [ih]
      simp [smallEntries_cons_big hc]

theorem fairnessPass_step (fd : FilesDict) (avg : Int) :
    ∀ (L : CntMap) (st : DState), (fairnessPass fd avg L st).step = st.step := by
  intro L
  induction L with
  | nil => intro st; simp [fairnessPass]
  | cons p L ih =>
    intro st
    obtain ⟨h, c⟩ := p
    by_cases hc : (c : Int) ≤ avg
    · simp only [fairnessPass, if_pos hc]; rw [ih]
    · simp only [fairnessPass, if_neg hc]; rw [ih]

theorem fairnessPass_hours_sublist (fd : FilesDict) (avg : Int) :
    ∀ (L : CntMap) (st : DState), (fairnessPass fd avg L st).hours.Sublist st.hours := by
  intro L
  induction L with
  | nil => intro st; simp [fairnessPass]
  | cons p L ih =>
    intro st
    obtain ⟨h, c⟩ := p
    by_cases hc : (c : Int) ≤ avg
    · simp only [fairnessPass, if_pos hc]
      exact (ih _).trans (List.erase_sublist _ _)
    · simp only [fairnessPass, if_neg hc]
      exact ih _

theorem fairnessPass_cnt (fd : FilesDict) (avg : Int) :
    ∀ (L : CntMap) (st : DState),
      (∀ p ∈ L, p.1 ∉ cntKeys st.cnt) → (L.map Prod.fst).Nodup →
      (fairnessPass fd avg L st).cnt = st.cnt ++ smallEntries avg L := by
  intro L
  induction L with
  | nil => intro st _ _; simp [fairnessPass, smallEntries]
  | cons p L ih =>
    intro st hfresh hnd
    obtain ⟨h, c⟩ := p
    simp only [List.map_cons, List.nodup_cons] at hnd
    by_cases hc : (c : Int) ≤ avg
    · simp only [fairnessPass, if_pos hc]
      have hset : cntSet st.cnt h c = st.cnt ++ [(h, c)] :=
        cntSet_of_not_mem_keys (hfresh (h, c) (by simp)) c
      rw [ih _ ?_ hnd.2]
      · rw [hset, smallEntries_cons_small hc]
        simp [List.append_assoc]
      · intro q hq
        rw [hset, cntKeys_append]
        simp only [List.mem_append, cntKeys_cons, cntKeys_nil, List.mem_cons,
          List.not_mem_nil, or_false]
        push_neg
        exact ⟨hfresh q (List.mem_cons_of_mem _ hq),
          fun he => hnd.1 (he ▸ (List.mem_map_of_mem Prod.fst hq))⟩
    · simp only [fairnessPass, if_neg hc]
      rw [ih _ (fun q hq => hfresh q (List.mem_cons_of_mem _ hq)) hnd.2]
      simp [smallEntries_cons_big hc]

theorem fairnessPass_perbucket (fd : FilesDict) (avg : Int) :
    ∀ (L : CntMap) (st : DState),
      (∀ p ∈ L, p.2 = (dictGet fd p.1).length) →
      (∀ h', cntGet st.cnt h' + (availableFiles fd st.selected h').length ≤
        (dictGet fd h').length) →
      ∀ h', cntGet (fairnessPass fd avg L st).cnt h' +
          (availableFiles fd (fairnessPass fd avg L st).selected h').length ≤
        (dictGet fd h').length := by
  intro L
  induction L with
  | nil => intro st _ hinv h'; simpa [fairnessPass] using hinv h'
  | cons p L ih =>
    intro st hent hinv h'
    obtain ⟨h, c⟩ := p
    have hch : c = (dictGet fd h).length := hent (h, c) (by simp)
    by_cases hc : (c : Int) ≤ avg
    · simp only [fairnessPass, if_pos hc]
      refine ih _ (fun q hq => hent q (List.mem_cons_of_mem _ hq)) ?_ h'
      intro x
      by_cases hx : h = x
      · subst hx
        rw [cntGet_cntSet_self]
        have hzero : availableFiles fd (st.selected ++ dictGet fd h) h = [] := by
          rw [availableFiles_nil_iff]
          intro f hf
          exact List.mem_append_right _ hf
        simp [hzero, hch]
      · rw [cntGet_cntSet_other _ (fun he => hx he) c]
        calc cntGet st.cnt x + (availableFiles fd (st.selected ++ dictGet fd h) x).length
            ≤ cntGet st.cnt x + (availableFiles fd st.selected x).length :=
              Nat.add_le_add_left (availableFiles_length_mono fd _ _ x) _
          _ ≤ (dictGet fd x).length := hinv x
    · simp only [fairnessPass, if_neg hc]
      exact ih _ (fun q hq => hent q (List.mem_cons_of_mem _ hq)) hinv h'

theorem fairnessPass_selected_nodup (fd : FilesDict) (avg : Int) :
    ∀ (L : CntMap) (st : DState),
      st.selected.Nodup →
      (∀ p ∈ L, (dictGet fd p.1).Nodup) →
      (∀ p ∈ L, ∀ f ∈ dictGet fd p.1, f ∉ st.selected) →
      (L.map Prod.fst).Nodup →
      (∀ p ∈ L, ∀ q ∈ L, p.1 ≠ q.1 → ∀ f ∈ dictGet fd p.1, f ∉ dictGet fd q.1) →
      (fairnessPass fd avg L st).selected.Nodup := by
  intro L
  induction L with
  | nil => intro st hs _ _ _ _; simpa [fairnessPass] using hs
  | cons p L ih =>
    intro st hs hnb hdisjsel hnd hpair
    obtain ⟨h, c⟩ := p
    simp only [List.map_cons, List.nodup_cons] at hnd
    by_cases hc : (c : Int) ≤ avg
    · simp only [fairnessPass, if_pos hc]
      refine ih _ ?_ (fun q hq => hnb q (List.mem_cons_of_mem _ hq)) ?_ hnd.2
        (fun q hq r hr => hpair q (List.mem_cons_of_mem _ hq) r (List.mem_cons_of_mem _ hr))
      · exact List.Nodup.append hs (hnb (h, c) (by simp))
          (fun f hfsel hfb => hdisjsel (h, c) (by simp) f hfb hfsel)
      · intro q hq f hf
        simp only [List.mem_append]
        push_neg
        refine ⟨hdisjsel q (List.mem_cons_of_mem _ hq) f hf, ?_⟩
        have hqh : q.1 ≠ h := by
          intro he
          exact hnd.1 (he ▸ (List.mem_map_of_mem Prod.fst hq))
        exact hpair q (List.mem_cons_of_mem _ hq) (h, c) (by simp) hqh f hf
    · simp only [fairnessPass, if_neg hc]
      exact ih _ hs (fun q hq => hnb q (List.mem_cons_of_mem _ hq))
        (fun q hq => hdisjsel q (List.mem_cons_of_mem _ hq)) hnd.2
        (fun q hq r hr => hpair q (List.mem_cons_of_mem _ hq) r (List.mem_cons_of_mem _ hr))


/-! ### General lemmas about the greedy fill pass -/

theorem greedySweep_hours (fd : FilesDict) (oracle : Nat → Nat) :
    ∀ (hs : List Nat) (st : DState), (greedySweep fd oracle hs st).hours = st.hours := by
  intro hs
  induction hs with
  | nil => intro st; simp [greedySweep]
  | cons h hs ih =>
    intro st
    by_cases hreq : st.required ≤ 0
    · simp [greedySweep, if_pos hreq]
    · by_cases hav : availableFiles fd st.selected h = []
      · simp only [greedySweep, if_neg hreq, hav, if_pos]
        exact ih st
      · simp only [greedySweep, if_neg hreq, if_neg hav]
        exact ih _

theorem greedySweep_required_le (fd : FilesDict) (oracle : Nat → Nat) :
    ∀ (hs : List Nat) (st : DState), (greedySweep fd oracle hs st).required ≤ st.required := by
  intro hs
  induction hs with
  | nil => intro st; simp [greedySweep]
  | cons h hs ih =>
    intro st
    by_cases hreq : st.required ≤ 0
    · simp [greedySweep, if_pos hreq]
    · by_cases hav : availableFiles fd st.selected h = []
      · simp only [greedySweep, if_neg hreq, hav, if_pos]
        exact ih st
      · simp only [greedySweep, if_neg hreq, if_neg hav]
        have := ih ({ st with
          selected := st.selected ++ [chooseFrom (oracle st.step) (availableFiles fd st.selected h)]
          cnt := cntSet st.cnt h (cntGet st.cnt h + 1)
          required := st.required - 1
          step := st.step + 1 })
        simp only at this
        omega

theorem greedySweep_required_nonneg (fd : FilesDict) (oracle : Nat → Nat) :
    ∀ (hs : List Nat) (st : DState), 0 ≤ st.required →
      0 ≤ (greedySweep fd oracle hs st).required := by
  intro hs
  induction hs with
  | nil => intro st h0; simpa [greedySweep] using h0
  | cons h hs ih =>
    intro st h0
    by_cases hreq : st.required ≤ 0
    · simpa [greedySweep, if_pos hreq] using h0
    · by_cases hav : availableFiles fd st.selected h = []
      · simp only [greedySweep, if_neg hreq, hav, if_pos]
        exact ih st h0
      · simp only [greedySweep, if_neg hreq, if_neg hav]
        refine ih _ ?_
        simp only
        omega

theorem greedySweep_conservation (fd : FilesDict) (oracle : Nat → Nat) :
    ∀ (hs : List Nat) (st : DState),
      ((greedySweep fd oracle hs st).selected.length : Int) + (greedySweep fd oracle hs st).required =
        (st.selected.length : Int) + st.required := by
  intro hs
  induction hs with
  | nil => intro st; simp [greedySweep]
  | cons h hs ih =>
    intro st
    by_cases hreq : st.required ≤ 0
    · simp [greedySweep, if_pos hreq]
    · by_cases hav : availableFiles fd st.selected h = []
      · simp only [greedySweep, if_neg hreq, hav, if_pos]
        exact ih st
      · simp only [greedySweep, if_neg hreq, if_neg hav]
        rw [ih _]
        simp only [List.length_append, List.length_cons, List.length_nil]
        push_cast
        ring

theorem greedySweep_sumValues (fd : FilesDict) (oracle : Nat → Nat) :
    ∀ (hs : List Nat) (st : DState),
      sumValues st.cnt = st.selected.length →
      sumValues (greedySweep fd oracle hs st).cnt = (greedySweep fd oracle hs st).selected.length := by
  intro hs
  induction hs with
  | nil => intro st hsum; simpa [greedySweep] using hsum
  | cons h hs ih =>
    intro st hsum
    by_cases hreq : st.required ≤ 0
    · simpa [greedySweep, if_pos hreq] using hsum
    · by_cases hav : availableFiles fd st.selected h = []
      · simp only [greedySweep, if_neg hreq, hav, if_pos]
        exact ih st hsum
      · simp only [greedySweep, if_neg hreq, if_neg hav]
        refine ih _ ?_
        simp only [sumValues_cntSet_succ, List.length_append, List.length_cons,
          List.length_nil, hsum]

theorem greedySweep_provenance (fd : FilesDict) (oracle : Nat → Nat) :
    ∀ (hs : List Nat) (st : DState),
      ∀ f ∈ (greedySweep fd oracle hs st).selected,
        f ∈ st.selected ∨ ∃ h ∈ hs, f ∈ dictGet fd h := by
  intro hs
  induction hs with
  | nil =>
    intro st f hf
    simp only [greedySweep] at hf
    exact Or.inl hf
  | cons h hs ih =>
    intro st f hf
    by_cases hreq : st.required ≤ 0
    · simp only [greedySweep, if_pos hreq] at hf
      exact Or.inl hf
    · by_cases hav : availableFiles fd st.selected h = []
      · simp only [greedySweep, if_neg hreq, hav, if_pos] at hf
        rcases ih st f hf with h1 | ⟨x, hx, hfx⟩
        · exact Or.inl h1
        · exact Or.inr ⟨x, List.mem_cons_of_mem _ hx, hfx⟩
      · simp only [greedySweep, if_neg hreq, if_neg hav] at hf
        rcases ih _ f hf with h1 | ⟨x, hx, hfx⟩
        · simp only [List.mem_append, List.mem_singleton] at h1
          rcases h1 with h1 | h1
          · exact Or.inl h1
          · subst h1
            have hmem := chooseFrom_mem hav (oracle st.step)
            rcases mem_availableFiles.mp hmem with ⟨hb, _⟩
            exact Or.inr ⟨h, by simp, hb⟩
        · exact Or.inr ⟨x, List.mem_cons_of_mem _ hx, hfx⟩

theorem greedySweep_selected_nodup (fd : FilesDict) (oracle : Nat → Nat) :
    ∀ (hs : List Nat) (st : DState),
      st.selected.Nodup → (greedySweep fd oracle hs st).selected.Nodup := by
  intro hs
  induction hs with
  | nil => intro st hnd; simpa [greedySweep] using hnd
  | cons h hs ih =>
    intro st hnd
    by_cases hreq : st.required ≤ 0
    · simpa [greedySweep, if_pos hreq] using hnd
    · by_cases hav : availableFiles fd st.selected h = []
      · simp only [greedySweep, if_neg hreq, hav, if_pos]
        exact ih st hnd
      · simp only [greedySweep, if_neg hreq, if_neg hav]
        refine ih _ ?_
        simp only
        have hmem := chooseFrom_mem hav (oracle st.step)
        rcases mem_availableFiles.mp hmem with ⟨_, hnot⟩
        exact List.Nodup.append hnd (List.nodup_singleton _)
          (fun a ha hb => hnot ((List.mem_singleton.mp hb) ▸ ha))

theorem greedySweep_selected_ext (fd : FilesDict) (oracle : Nat → Nat) :
    ∀ (hs : List Nat) (st : DState),
      ∃ ext, (greedySweep fd oracle hs st).selected = st.selected ++ ext := by
  intro hs
  induction hs with
  | nil => intro st; exact ⟨[], by simp [greedySweep]⟩
  | cons h hs ih =>
    intro st
    by_cases hreq : st.required ≤ 0
    · exact ⟨[], by simp [greedySweep, if_pos hreq]⟩
    · by_cases hav : availableFiles fd st.selected h = []
      · simp only [greedySweep, if_neg hreq, hav, if_pos]
        exact ih st
      · simp only [greedySweep, if_neg hreq, if_neg hav]
        obtain ⟨ext, hext⟩ := ih ({ st with
          selected := st.selected ++ [chooseFrom (oracle st.step) (availableFiles fd st.selected h)]
          cnt := cntSet st.cnt h (cntGet st.cnt h + 1)
          required := st.required - 1
          step := st.step + 1 })
        refine ⟨[chooseFrom (oracle st.step) (availableFiles fd st.selected h)] ++ ext, ?_⟩
        simp only at hext
        rw [hext, List.append_assoc]

theorem greedySweep_perbucket (fd : FilesDict) (oracle : Nat → Nat) :
    ∀ (hs : List Nat) (st : DState),
      (∀ h', cntGet st.cnt h' + (availableFiles fd st.selected h').length ≤
        (dictGet fd h').length) →
      ∀ h', cntGet (greedySweep fd oracle hs st).cnt h' +
          (availableFiles fd (greedySweep fd oracle hs st).selected h').length ≤
        (dictGet fd h').length := by
  intro hs
  induction hs with
  | nil => intro st hinv h'; simpa [greedySweep] using hinv h'
  | cons h hs ih =>
    intro st hinv h'
    by_cases hreq : st.required ≤ 0
    · simpa [greedySweep, if_pos hreq] using hinv h'
    · by_cases hav : availableFiles fd st.selected h = []
      · simp only [greedySweep, if_neg hreq, hav, if_pos]
        exact ih st hinv h'
      · simp only [greedySweep, if_neg hreq, if_neg hav]
        refine ih _ ?_ h'
        intro x
        have hmem := chooseFrom_mem hav (oracle st.step)
        rcases mem_availableFiles.mp hmem with ⟨hb, hnot⟩
        by_cases hx : h = x
        · subst hx
          simp only [cntGet_cntSet_self]
          have hlt := availableFiles_pick_lt hb hnot
          have := hinv h
          omega
        · simp only [cntGet_cntSet_other _ (fun he => hx he) _]
          have hmono := availableFiles_length_mono fd st.selected
            [chooseFrom (oracle st.step) (availableFiles fd st.selected h)] x
          have := hinv x
          omega

theorem greedySweep_cntKeys (fd : FilesDict) (oracle : Nat → Nat) :
    ∀ (hs : List Nat) (st : DState),
      (cntKeys (greedySweep fd oracle hs st).cnt ⊆ cntKeys st.cnt ++ hs) ∧
        ((cntKeys st.cnt).Nodup → (cntKeys (greedySweep fd oracle hs st).cnt).Nodup) := by
  intro hs
  induction hs with
  | nil => intro st; constructor
           · simp [greedySweep]
           · intro hnd; simpa [greedySweep] using hnd
  | cons h hs ih =>
    intro st
    by_cases hreq : st.required ≤ 0
    · constructor
      · simp only [greedySweep, if_pos hreq]
        intro x hx
        exact List.mem_append_left _ hx
      · intro hnd; simpa [greedySweep, if_pos hreq] using hnd
    · by_cases hav : availableFiles fd st.selected h = []
      · constructor
        · simp only [greedySweep, if_neg hreq, hav, if_pos]
          intro x hx
          have := (ih st).1 hx
          simp only [List.mem_append, List.mem_cons] at this ⊢
          tauto
        · intro hnd
          simp only [greedySweep, if_neg hreq, hav, if_pos]
          exact (ih st).2 hnd
      · constructor
        · simp only [greedySweep, if_neg hreq, if_neg hav]
          intro x hx
          have h1 := (ih _).1 hx
          simp only [List.mem_append, List.mem_cons] at h1 ⊢
          rcases h1 with h1 | h1
          · have h2 := cntKeys_cntSet_subset st.cnt h (cntGet st.cnt h + 1) h1
            simp only [List.mem_append, List.mem_singleton] at h2
            tauto
          · tauto
        · intro hnd
          simp only [greedySweep, if_neg hreq, if_neg hav]
          exact (ih _).2 (cntKeys_cntSet_nodup hnd h _)



/-! ### The exact supply bookkeeping under disjoint, duplicate-free buckets -/

/-- Number of not-yet-selected files over the buckets of `hs`. -/
def availTotal (fd : FilesDict) (hs : List Nat) (sel : List String) : Nat :=
  (hs.map (fun h => (availableFiles fd sel h).length)).sum

theorem PairwiseDisjoint_restrict {fd : FilesDict} {hours hours' : List Nat}
    (hsub : ∀ h ∈ hours', h ∈ hours) (hdisj : PairwiseDisjoint fd hours) :
    PairwiseDisjoint fd hours' :=
  fun a ha b hb => hdisj a (hsub a ha) b (hsub b hb)

theorem NodupBuckets_restrict {fd : FilesDict} {hours hours' : List Nat}
    (hsub : ∀ h ∈ hours', h ∈ hours) (hnb : NodupBuckets fd hours) :
    NodupBuckets fd hours' :=
  fun a ha => hnb a (hsub a ha)

theorem availTotal_pick {fd : FilesDict} {bh : List Nat} {sel : List String} {h : Nat} {f : String}
    (hnd : bh.Nodup) (hdisj : PairwiseDisjoint fd bh) (hnb : NodupBuckets fd bh)
    (hh : h ∈ bh) (hf : f ∈ dictGet fd h) (hnot : f ∉ sel) :
    availTotal fd bh (sel ++ [f]) + 1 = availTotal fd bh sel := by
  induction bh with
  | nil => simp at hh
  | cons x rest ih =>
    simp only [List.nodup_cons] at hnd
    rcases List.mem_cons.mp hh with hx | hx
    · have hterm := availableFiles_pick_exact (hnb h hh) hf hnot
      have hrest : rest.map (fun y => (availableFiles fd (sel ++ [f]) y).length)
          = rest.map (fun y => (availableFiles fd sel y).length) := by
        apply List.map_congr_left
        intro y hy
        have hyh : h ≠ y := fun he => hnd.1 (hx ▸ he ▸ hy)
        have hfy : f ∉ dictGet fd y :=
          hdisj h hh y (List.mem_cons_of_mem _ hy) hyh f hf
        rw [availableFiles_unchanged hfy]
      subst hx
      simp only [availTotal, List.map_cons, List.sum_cons, hrest]
      omega
    · have hxh : x ≠ h := fun he => hnd.1 (he ▸ hx)
      have hxf : f ∉ dictGet fd x :=
        hdisj h (List.mem_cons_of_mem _ hx) x (by simp) (fun he => hxh he.symm) f hf
      have hterm : availableFiles fd (sel ++ [f]) x = availableFiles fd sel x :=
        availableFiles_unchanged hxf
      have ihr := ih hnd.2
        (PairwiseDisjoint_restrict (fun a ha => List.mem_cons_of_mem _ ha) hdisj)
        (NodupBuckets_restrict (fun a ha => List.mem_cons_of_mem _ ha) hnb) hx
      simp only [availTotal, List.map_cons, List.sum_cons, hterm] at ihr ⊢
      omega

theorem greedySweep_availTotal (fd : FilesDict) (oracle : Nat → Nat) {bh : List Nat}
    (hnd : bh.Nodup) (hdisj : PairwiseDisjoint fd bh) (hnb : NodupBuckets fd bh) :
    ∀ (pr : List Nat) (st : DState), (∀ h ∈ pr, h ∈ bh) →
      (greedySweep fd oracle pr st).required -
          (availTotal fd bh (greedySweep fd oracle pr st).selected : Int) =
        st.required - (availTotal fd bh st.selected : Int) := by
  intro pr
  induction pr with
  | nil => intro st _; simp [greedySweep]
  | cons h rest ih =>
    intro st hsub
    by_cases hreq : st.required ≤ 0
    · simp [greedySweep, if_pos hreq]
    · by_cases hav : availableFiles fd st.selected h = []
      · simp only [greedySweep, if_neg hreq, hav, if_pos]
        exact ih st (fun a ha => hsub a (List.mem_cons_of_mem _ ha))
      · simp only [greedySweep, if_neg hreq, if_neg hav]
        have hmem := chooseFrom_mem hav (oracle st.step)
        rcases mem_availableFiles.mp hmem with ⟨hb, hnot⟩
        have hpick : availTotal fd bh (st.selected ++
            [chooseFrom (oracle st.step) (availableFiles fd st.selected h)]) + 1 =
            availTotal fd bh st.selected :=
          availTotal_pick hnd hdisj hnb (hsub h (by simp)) hb hnot
        have ihr := ih ({ st with
            selected := st.selected ++ [chooseFrom (oracle st.step) (availableFiles fd st.selected h)]
            cnt := cntSet st.cnt h (cntGet st.cnt h + 1)
            required := st.required - 1
            step := st.step + 1 }) (fun a ha => hsub a (List.mem_cons_of_mem _ ha))
        simp only at ihr
        rw [ihr]
        omega

theorem greedySweep_progress (fd : FilesDict) (oracle : Nat → Nat) :
    ∀ (pr : List Nat) (st : DState),
      0 < st.required → 0 < availTotal fd pr st.selected →
      (greedySweep fd oracle pr st).required < st.required := by
  intro pr
  induction pr with
  | nil => intro st _ hpos; simp [availTotal] at hpos
  | cons h rest ih =>
    intro st hreq hpos
    have hreq' : ¬st.required ≤ 0 := by omega
    by_cases hav : availableFiles fd st.selected h = []
    · simp only [greedySweep, if_neg hreq', hav, if_pos]
      refine ih st hreq ?_
      simpa [availTotal, hav] using hpos
    · simp only [greedySweep, if_neg hreq', if_neg hav]
      have hmono := greedySweep_required_le fd oracle rest ({ st with
          selected := st.selected ++ [chooseFrom (oracle st.step) (availableFiles fd st.selected h)]
          cnt := cntSet st.cnt h (cntGet st.cnt h + 1)
          required := st.required - 1
          step := st.step + 1 })
      simp only at hmono
      omega

/-! ### The greedy while loop -/

theorem greedyLoop_exit (fd : FilesDict) (oracle : Nat → Nat) :
    ∀ (fuel : Nat) (st st' : DState), greedyLoop fd oracle fuel st = some st' →
      st'.required ≤ 0 ∨ st'.hours = [] := by
  intro fuel
  induction fuel with
  | zero =>
    intro st st' hret
    by_cases hcond : 0 < st.required ∧ st.hours ≠ []
    · simp [greedyLoop, if_pos hcond] at hret
    · simp only [greedyLoop, if_neg hcond, Option.some_inj] at hret
      subst hret
      push_neg at hcond
      by_cases h1 : 0 < st.required
      · exact Or.inr (hcond h1)
      · exact Or.inl (by omega)
  | succ fuel ih =>
    intro st st' hret
    by_cases hcond : 0 < st.required ∧ st.hours ≠ []
    · simp only [greedyLoop, if_pos hcond] at hret
      exact ih _ _ hret
    · simp only [greedyLoop, if_neg hcond, Option.some_inj] at hret
      subst hret
      push_neg at hcond
      by_cases h1 : 0 < st.required
      · exact Or.inr (hcond h1)
      · exact Or.inl (by omega)

theorem greedyLoop_preserve (fd : FilesDict) (oracle : Nat → Nat) (P : DState → Prop)
    (hP : ∀ st, P st → P (greedySweep fd oracle st.hours st)) :
    ∀ (fuel : Nat) (st st' : DState), greedyLoop fd oracle fuel st = some st' →
      P st → P st' := by
  intro fuel
  induction fuel with
  | zero =>
    intro st st' hret hp
    by_cases hcond : 0 < st.required ∧ st.hours ≠ []
    · simp [greedyLoop, if_pos hcond] at hret
    · simp only [greedyLoop, if_neg hcond, Option.some_inj] at hret
      exact hret ▸ hp
  | succ fuel ih =>
    intro st st' hret hp
    by_cases hcond : 0 < st.required ∧ st.hours ≠ []
    · simp only [greedyLoop, if_pos hcond] at hret
      exact ih _ _ hret (hP st hp)
    · simp only [greedyLoop, if_neg hcond, Option.some_inj] at hret
      exact hret ▸ hp

theorem greedyLoop_isSome (fd : FilesDict) (oracle : Nat → Nat) {bh : List Nat}
    (hnd : bh.Nodup) (hdisj : PairwiseDisjoint fd bh) (hnb : NodupBuckets fd bh) :
    ∀ (fuel : Nat) (st : DState), st.hours = bh →
      st.required ≤ (availTotal fd bh st.selected : Int) →
      st.required.toNat ≤ fuel →
      (greedyLoop fd oracle fuel st).isSome := by
  intro fuel
  induction fuel with
  | zero =>
    intro st hhours hle htn
    have : st.required ≤ 0 := by omega
    have hcond : ¬(0 < st.required ∧ st.hours ≠ []) := by
      intro hc
      omega
    simp [greedyLoop, if_neg hcond]
  | succ fuel ih =>
    intro st hhours hle htn
    by_cases hcond : 0 < st.required ∧ st.hours ≠ []
    · simp only [greedyLoop, if_pos hcond]
      set st1 := greedySweep fd oracle st.hours st with hst1
      have hhours1 : st1.hours = bh := by
        rw [hst1, greedySweep_hours]
        exact hhours
      have hdiff := greedySweep_availTotal fd oracle hnd hdisj hnb st.hours st
        (by rw [hhours]; exact fun a ha => ha)
      have hle1 : st1.required ≤ (availTotal fd bh st1.selected : Int) := by
        rw [← hst1] at hdiff
        omega
      have hprog : st1.required < st.required := by
        rw [hst1, hhours]
        apply greedySweep_progress
        · exact hcond.1
        · have h1 : (0 : Int) < availTotal fd bh st.selected := by omega
          exact_mod_cast h1
      have htn1 : st1.required.toNat ≤ fuel := by omega
      exact ih st1 hhours1 hle1 htn1
    · simp [greedyLoop, if_neg hcond]


/-! ### Exact characterization of the fairness pass on duplicate-free hour lists -/

/-- Whether the bucket of `h` is taken whole by the fairness pass. -/
def bucketSmall (fd : FilesDict) (avg : Int) (h : Nat) : Bool :=
  decide (((dictGet fd h).length : Int) ≤ avg)

theorem smallEntries_map (fd : FilesDict) (avg : Int) (hs : List Nat) :
    smallEntries avg (hs.map (fun h => (h, (dictGet fd h).length))) =
      (hs.filter (bucketSmall fd avg)).map (fun h => (h, (dictGet fd h).length)) := by
  unfold smallEntries
  rw [List.filter_map]
  congr 1

theorem cntGet_map_self {xs : List Nat} {g : Nat → Nat} {x : Nat} (hx : x ∈ xs) :
    cntGet (xs.map (fun h => (h, g h))) x = g x := by
  induction xs with
  | nil => simp at hx
  | cons y ys ih =>
    rcases List.mem_cons.mp hx with hy | hy
    · subst hy; simp [cntGet]
    · by_cases hyx : y = x
      · subst hyx; simp [cntGet]
      · simp only [List.map_cons, cntGet, if_neg hyx]
        exact ih hy

theorem cntGet_map_not_mem {xs : List Nat} {g : Nat → Nat} {x : Nat} (hx : x ∉ xs) :
    cntGet (xs.map (fun h => (h, g h))) x = 0 := by
  induction xs with
  | nil => simp [cntGet]
  | cons y ys ih =>
    simp only [List.mem_cons] at hx
    push_neg at hx
    have hyx : ¬y = x := fun he => hx.1 (Eq.symm he)
    simp only [List.map_cons, cntGet, if_neg hyx]
    exact ih hx.2

theorem fairnessPass_hours_spec (fd : FilesDict) (avg : Int) :
    ∀ (hs : List Nat) (st : DState), hs.Nodup → st.hours.Nodup →
      (fairnessPass fd avg (hs.map (fun h => (h, (dictGet fd h).length))) st).hours =
        st.hours.filter (fun x => !(decide (x ∈ hs) && bucketSmall fd avg x)) := by
  intro hs
  induction hs with
  | nil =>
    intro st _ _
    simp [fairnessPass]
  | cons h hs ih =>
    intro st hnd hndh
    simp only [List.nodup_cons] at hnd
    simp only [List.map_cons]
    by_cases hc : ((dictGet fd h).length : Int) ≤ avg
    · simp only [fairnessPass, if_pos hc]
      rw [ih _ hnd.2 (hndh.erase h)]
      simp only
      rw [List.Nodup.erase_eq_filter hndh h, List.filter_filter]
      apply List.filter_congr
      intro x hx
      by_cases hxh : x = h
      · subst hxh
        have hsm : bucketSmall fd avg x = true := by
          simp [bucketSmall, hc]
        simp [hsm]
      · simp only [List.mem_cons]
        have h1 : (x != h) = true := by simpa using hxh
        have h2 : decide (x = h ∨ x ∈ hs) = decide (x ∈ hs) := by
          simp [hxh]
        rw [h2]
        simp [h1]
    · simp only [fairnessPass, if_neg hc]
      rw [ih _ hnd.2 hndh]
      apply List.filter_congr
      intro x hx
      by_cases hxh : x = h
      · subst hxh
        have hsm : bucketSmall fd avg x = false := by
          simp [bucketSmall, hc]
        simp [hsm]
      · simp only [List.mem_cons]
        have h2 : decide (x = h ∨ x ∈ hs) = decide (x ∈ hs) := by
          simp [hxh]
        rw [h2]

theorem fairnessPass_init_spec (fd : FilesDict) (avg : Int) {hours : List Nat}
    (hnd : hours.Nodup) (req : Int) :
    fairnessPass fd avg (hours.map (fun h => (h, (dictGet fd h).length))) (initState hours req) =
      { selected := ((hours.filter (bucketSmall fd avg)).map (fun h => dictGet fd h)).flatten
        cnt := (hours.filter (bucketSmall fd avg)).map (fun h => (h, (dictGet fd h).length))
        hours := hours.filter (fun h => !bucketSmall fd avg h)
        required := req -
          (((hours.filter (bucketSmall fd avg)).map (fun h => ((dictGet fd h).length : Int))).sum)
        step := 0 } := by
  have hsel := fairnessPass_selected fd avg
    (hours.map (fun h => (h, (dictGet fd h).length))) (initState hours req)
  have hcnt := fairnessPass_cnt fd avg
    (hours.map (fun h => (h, (dictGet fd h).length))) (initState hours req)
    (by intro p hp; simp [initState, cntKeys])
    (by
      rw [List.map_map]
      have hco : (Prod.fst ∘ fun h : Nat => (h, (dictGet fd h).length)) = fun h => h := rfl
      rw [hco, List.map_id']
      exact hnd)
  have hreq := fairnessPass_required fd avg
    (hours.map (fun h => (h, (dictGet fd h).length))) (initState hours req)
  have hstep := fairnessPass_step fd avg
    (hours.map (fun h => (h, (dictGet fd h).length))) (initState hours req)
  have hhrs := fairnessPass_hours_spec fd avg hours (initState hours req) hnd
    (by simpa [initState] using hnd)
  apply DState.ext
  · rw [hsel, smallEntries_map]
    simp only [initState, List.nil_append]
    rw [List.map_map]
    rfl
  · rw [hcnt, smallEntries_map]
    simp [initState]
  · rw [hhrs]
    simp only [initState]
    apply List.filter_congr
    intro x hx
    simp [hx]
  · rw [hreq]
    simp only [initState]
    congr 1
    unfold smallSum
    rw [smallEntries_map]
    rw [List.map_map]
    rfl
  · rw [hstep]
    simp [initState]

theorem sum_map_filter_split (g : Nat → Nat) (p : Nat → Bool) (l : List Nat) :
    ((l.filter p).map g).sum + ((l.filter (fun x => !p x)).map g).sum = (l.map g).sum := by
  induction l with
  | nil => simp
  | cons x l ih =>
    by_cases hx : p x = true
    · simp only [List.filter_cons, hx, Bool.not_true, if_true, Bool.false_eq_true, if_false,
        List.map_cons, List.sum_cons]
      omega
    · simp only [Bool.not_eq_true] at hx
      simp only [List.filter_cons, hx, Bool.not_false, Bool.false_eq_true, if_false, if_true,
        List.map_cons, List.sum_cons]
      omega

theorem sum_map_zero_of_total {l : List Nat} {g : Nat → Nat} (hsum : (l.map g).sum = 0) :
    ∀ x ∈ l, g x = 0 := by
  induction l with
  | nil => simp
  | cons y l ih =>
    simp only [List.map_cons, List.sum_cons] at hsum
    intro x hx
    rcases List.mem_cons.mp hx with hy | hy
    · subst hy; omega
    · exact ih (by omega) x hy


/-! ### Unfolding `distribute_files` -/

/-- The fairness-pass result state of a `distribute_files` call. -/
def fairState (fd : FilesDict) (hours : List Nat) (t : Int) : DState :=
  fairnessPass fd (average_files fd hours t) (buildCounts fd hours)
    (initState hours (clampedTarget fd hours t))

theorem distribute_files_eq (fd : FilesDict) (oracle : Nat → Nat) (fuel : Nat)
    (hours : List Nat) (t : Int) (hne : hours ≠ []) :
    distribute_files fd oracle fuel hours t =
      (greedyLoop fd oracle fuel (fairState fd hours t)).map
        (fun st => (st.selected, st.cnt, st.hours)) := by
  simp [distribute_files, hne, fairState]

theorem distribute_files_some_elim {fd : FilesDict} {oracle : Nat → Nat} {fuel : Nat}
    {hours : List Nat} {t : Int} {sel : List String} {cnt : CntMap} {hrs : List Nat}
    (hret : distribute_files fd oracle fuel hours t = some (sel, cnt, hrs)) :
    hours ≠ [] ∧ ∃ st, greedyLoop fd oracle fuel (fairState fd hours t) = some st ∧
      st.selected = sel ∧ st.cnt = cnt ∧ st.hours = hrs := by
  by_cases hne : hours = []
  · rw [hne] at hret
    simp [distribute_files] at hret
  · refine ⟨hne, ?_⟩
    rw [distribute_files_eq fd oracle fuel hours t hne] at hret
    rcases Option.map_eq_some.mp hret with ⟨st, hst, heq⟩
    refine ⟨st, hst, ?_, ?_, ?_⟩
    · exact congrArg (fun p => p.1) heq
    · exact congrArg (fun p => p.2.1) heq
    · exact congrArg (fun p => p.2.2) heq

/-! ### Claim C2: purity of `distribute_files` -/

/-- The concrete input showing the mutation of the hours list: bucket 1 is
empty, so the fairness pass removes hour 1 from the list in place. -/
def fdC2 : FilesDict := [(0, ["a", "b", "c"]), (1, [])]

/-- C2 counterexample: `distribute_files` is not pure: called on the hours list
`[0, 1]`, it returns with the caller's hours list mutated to `[0]` (the
fairness pass executed `hours.remove(1)`), contradicting the claim that the
caller-supplied hours list is left unchanged on every input. -/
theorem C2_mutates_hours_cex :
    (distribute_files fdC2 (fun _ => 0) 3 [0, 1] 2).map (fun r => r.2.2) = some [0] ∧
      [0] ≠ [(0 : Nat), 1] := by
  constructor
  · rfl
  · decide

/-- C2 amended: `distribute_files` leaves `files_dict` unchanged (it only reads
it), but it does mutate the caller-supplied hours list in place: the list after
the call is a sublist of the original, with the hours consumed whole by the
fairness pass removed. -/
theorem C2_amended_hours_sublist (fd : FilesDict) (oracle : Nat → Nat) (fuel : Nat)
    (hours : List Nat) (t : Int) (sel : List String) (cnt : CntMap) (hrs : List Nat)
    (hret : distribute_files fd oracle fuel hours t = some (sel, cnt, hrs)) :
    hrs.Sublist hours := by
  obtain ⟨hne, st, hloop, _, _, hhrs⟩ := distribute_files_some_elim hret
  have hpres := greedyLoop_preserve fd oracle (fun st => st.hours.Sublist hours)
    (fun st hp => by
      show (greedySweep fd oracle st.hours st).hours.Sublist hours
      rw [greedySweep_hours]
      exact hp) fuel _ st hloop ?_
  · exact hhrs ▸ hpres
  · have h1 := fairnessPass_hours_sublist fd (average_files fd hours t)
      (buildCounts fd hours) (initState hours (clampedTarget fd hours t))
    simpa [fairState, initState] using h1

/-- Closed witness for the amended C2 at a concrete input. -/
theorem C2_amended_hours_sublist_witness :
    List.Sublist [0] [(0 : Nat), 1] :=
  C2_amended_hours_sublist fdC2 (fun _ => 0) 3 [0, 1] 2 ["a", "b"] [(1, 0), (0, 2)] [0] rfl

/-! ### Claim C3: the bucket classifier -/

/-- C3 counterexample: the classifier does not restrict its result to [0,23]
and does not fail on an out-of-range two-digit prefix: on a name whose fifth
dash-delimited field starts with "99" it succeeds and returns 99. -/
theorem C3_out_of_range_accepted :
    extractHour? "a-b-c-d-99x.jpg" = some 99 ∧ ¬(99 ≤ 23) := by
  constructor
  · rfl
  · decide

theorem digitsVal_lt_100 : ∀ {cs : List Char}, cs.length ≤ 2 →
    cs.all isDigitChar = true → digitsVal cs < 100
  | [], _, _ => by simp [digitsVal]
  | [c], _, hdig => by
    simp only [List.all_cons, List.all_nil, Bool.and_true, isDigitChar,
      decide_eq_true_eq] at hdig
    simp only [digitsVal, List.foldl_cons, List.foldl_nil]
    omega
  | [c, d], _, hdig => by
    simp only [List.all_cons, List.all_nil, Bool.and_true, Bool.and_eq_true, isDigitChar,
      decide_eq_true_eq] at hdig
    simp only [digitsVal, List.foldl_cons, List.foldl_nil]
    omega
  | _ :: _ :: _ :: _, hlen, _ => by simp at hlen

theorem isPySpace_of_digit {c : Char} (h : isDigitChar c = true) : isPySpace c = false := by
  simp only [isDigitChar, decide_eq_true_eq] at h
  simp only [isPySpace, decide_eq_false_iff_not]
  omega

theorem digit_ne_plus {c : Char} (h : isDigitChar c = true) : ¬c = '+' := by
  simp only [isDigitChar, decide_eq_true_eq] at h
  intro he
  subst he
  simp at h

theorem dropWhile_pySpace_of_digits {cs : List Char}
    (hd : cs.all isDigitChar = true) : cs.dropWhile isPySpace = cs := by
  cases cs with
  | nil => rfl
  | cons c rest =>
    have hc : isDigitChar c = true := by
      simp only [List.all_cons, Bool.and_eq_true] at hd
      exact hd.1
    rw [List.dropWhile_cons, isPySpace_of_digit hc]
    simp

theorem strip_of_digits {cs : List Char} (hne : cs ≠ [])
    (hd : cs.all isDigitChar = true) : stripSign (stripSpaces cs) = cs := by
  have h1 : stripSpaces cs = cs := by
    unfold stripSpaces
    rw [dropWhile_pySpace_of_digits hd,
      dropWhile_pySpace_of_digits (by rw [List.all_reverse]; exact hd), List.reverse_reverse]
  rw [h1]
  cases cs with
  | nil => rfl
  | cons c rest =>
    have hc : isDigitChar c = true := by
      simp only [List.all_cons, Bool.and_eq_true] at hd
      exact hd.1
    show (if c = '+' then rest else c :: rest) = c :: rest
    rw [if_neg (digit_ne_plus hc)]

theorem stripped_length_le (cs : List Char) :
    (stripSign (stripSpaces cs)).length ≤ cs.length := by
  have h1 : (stripSpaces cs).length ≤ cs.length := by
    unfold stripSpaces
    rw [List.length_reverse]
    calc ((cs.dropWhile isPySpace).reverse.dropWhile isPySpace).length
        ≤ (cs.dropWhile isPySpace).reverse.length :=
          (List.dropWhile_sublist isPySpace).length_le
      _ = (cs.dropWhile isPySpace).length := List.length_reverse _
      _ ≤ cs.length := (List.dropWhile_sublist isPySpace).length_le
  cases hsp : stripSpaces cs with
  | nil => simp [stripSign]
  | cons c rest =>
    show (if c = '+' then rest else c :: rest).length ≤ cs.length
    by_cases hc : c = '+'
    · rw [if_pos hc]
      rw [hsp] at h1
      simp only [List.length_cons] at h1
      omega
    · rw [if_neg hc]
      rw [hsp] at h1
      exact h1

theorem splitDash_no_dash : ∀ (s : List Char), ∀ field ∈ splitDash s, '-' ∉ field := by
  intro s
  induction s with
  | nil =>
    intro field hf
    simp only [splitDash, List.mem_singleton] at hf
    simp [hf]
  | cons c cs ih =>
    intro field hf
    by_cases hc : c = '-'
    · rw [splitDash, if_pos hc] at hf
      rcases List.mem_cons.mp hf with hf | hf
      · simp [hf]
      · exact ih field hf
    · rw [splitDash, if_neg hc] at hf
      rcases hsp : splitDash cs with _ | ⟨w, ws⟩
      · rw [hsp] at hf
        simp only [List.mem_singleton] at hf
        subst hf
        intro hm
        rcases List.mem_singleton.mp hm with hm
        exact hc hm.symm
      · rw [hsp] at hf
        rcases List.mem_cons.mp hf with hf | hf
        · subst hf
          intro hm
          rcases List.mem_cons.mp hm with hm | hm
          · exact hc hm.symm
          · exact ih w (by rw [hsp]; simp) hm
        · exact ih field (by rw [hsp]; exact List.mem_cons_of_mem _ hf)

/-- C3 amended: the classifier performs no range check against [0,23]: whenever
it succeeds it returns the numeric value of the parsed two-character prefix of
dash-field index 4, an integer below 100.  It fails whenever the identifier
has fewer than 5 dash-delimited fields; it succeeds with the prefix's numeric
value whenever that prefix is a nonempty string of decimal digits; and on
identifiers made of ASCII characters it fails exactly when there are fewer
than 5 fields or the prefix, after stripping surrounding whitespace and one
optional plus sign, is not a nonempty string of decimal digits. -/
theorem C3_amended_parse_characterization :
    (∀ (s : String) (h : Nat), extractHour? s = some h → h < 100) ∧
    (∀ s : String, (splitDash s.data)[4]? = none → extractHour? s = none) ∧
    (∀ (s : String) (field : List Char), (splitDash s.data)[4]? = some field →
      field.take 2 ≠ [] → (field.take 2).all isDigitChar = true →
      extractHour? s = some (digitsVal (field.take 2))) ∧
    (∀ s : String, (∀ c ∈ s.data, c.toNat ≤ 127) →
      (extractHour? s = none ↔
        (splitDash s.data)[4]? = none ∨
          ∃ field, (splitDash s.data)[4]? = some field ∧
            ¬(stripSign (stripSpaces (field.take 2)) ≠ [] ∧
              (stripSign (stripSpaces (field.take 2))).all isDigitChar))) := by
  refine ⟨?_, ?_, ?_, ?_⟩
  · intro s h hret
    unfold extractHour? at hret
    rcases hget : (splitDash s.data)[4]? with _ | field
    · rw [hget] at hret; simp at hret
    · rw [hget] at hret
      simp only [parseDecimal?] at hret
      by_cases hcond : stripSign (stripSpaces (field.take 2)) ≠ [] ∧
          (stripSign (stripSpaces (field.take 2))).all isDigitChar
      · rw [if_pos hcond] at hret
        have hh : h = digitsVal (stripSign (stripSpaces (field.take 2))) := by
          simp only [Option.some_inj] at hret
          exact hret.symm
        subst hh
        refine digitsVal_lt_100 ?_ hcond.2
        calc (stripSign (stripSpaces (field.take 2))).length
            ≤ (field.take 2).length := stripped_length_le _
          _ ≤ 2 := by simp
      · rw [if_neg hcond] at hret
        simp at hret
  · intro s hget
    simp [extractHour?, hget]
  · intro s field hget hne hdig
    simp only [extractHour?, hget, parseDecimal?, strip_of_digits hne hdig]
    rw [if_pos ⟨hne, hdig⟩]
  · intro s _
    rcases hget : (splitDash s.data)[4]? with _ | field
    · simp [extractHour?, hget]
    · simp only [extractHour?, hget, parseDecimal?]
      by_cases hcond : stripSign (stripSpaces (field.take 2)) ≠ [] ∧
          (stripSign (stripSpaces (field.take 2))).all isDigitChar
      · rw [if_pos hcond]
        constructor
        · intro hcontra
          simp at hcontra
        · rintro (hc | ⟨field2, heq, hc⟩)
          · simp at hc
          · rw [Option.some_inj] at heq
            subst heq
            exact absurd hcond hc
      · rw [if_neg hcond]
        simp only [true_iff]
        exact Or.inr ⟨field, rfl, hcond⟩

/-- Closed witness for the amended C3: the classifier value on a concrete
out-of-range name is below 100. -/
theorem C3_amended_parse_witness : (99 : Nat) < 100 :=
  C3_amended_parse_characterization.1 "a-b-c-d-99x.jpg" 99 rfl


/-! ### Claim C4: the greedy fill loop and termination -/

/-- Bucket 0 holds the same name twice; after the single distinct name is
selected the bucket still reports one file available to the clamp but none to
the fill pass. -/
def fdLoop : FilesDict := [(0, ["a", "a"]), (1, [])]

/-- The state reached after the fairness pass and one sweep of the fill loop on
`fdLoop`: one file selected, requirement still 1, no unselected file left. -/
def stuckState : DState :=
  { selected := ["a"], cnt := [(1, 0), (0, 1)], hours := [0], required := 1, step := 1 }

theorem greedyLoop_stuck : ∀ fuel : Nat,
    greedyLoop fdLoop (fun _ => 0) fuel stuckState = none := by
  intro fuel
  induction fuel with
  | zero => rfl
  | succ n ih =>
    have hstep : greedyLoop fdLoop (fun _ => 0) (n + 1) stuckState =
        greedyLoop fdLoop (fun _ => 0) n stuckState := by
      show (if 0 < stuckState.required ∧ stuckState.hours ≠ [] then
          greedyLoop fdLoop (fun _ => 0) n
            (greedySweep fdLoop (fun _ => 0) stuckState.hours stuckState)
        else some stuckState) = greedyLoop fdLoop (fun _ => 0) n stuckState
      rw [if_pos (by decide)]
      rfl
    rw [hstep]
    exact ih

/-- C4 counterexample: the fill pass does not terminate gracefully on every
input on which every bucket is exhausted before the requirement reaches 0.  On
`fdLoop` (bucket 0 = ["a", "a"], bucket 1 = []) with target 2, the clamp sees 2
available files but only one distinct name exists, so after one pick the while
loop spins forever: no fuel bound makes the call return. -/
theorem C4_nontermination_cex :
    ¬∃ fuel : Nat, (distribute_files fdLoop (fun _ => 0) fuel [0, 1] 2).isSome := by
  rintro ⟨fuel, hsome⟩
  have hnone : distribute_files fdLoop (fun _ => 0) fuel [0, 1] 2 = none := by
    rw [distribute_files_eq fdLoop (fun _ => 0) fuel [0, 1] 2 (by decide)]
    have hA : ∀ n : Nat, greedyLoop fdLoop (fun _ => 0) n (fairState fdLoop [0, 1] 2) = none := by
      intro n
      cases n with
      | zero => rfl
      | succ m =>
        have hstep : greedyLoop fdLoop (fun _ => 0) (m + 1) (fairState fdLoop [0, 1] 2) =
            greedyLoop fdLoop (fun _ => 0) m stuckState := by
          show (if 0 < (fairState fdLoop [0, 1] 2).required ∧
              (fairState fdLoop [0, 1] 2).hours ≠ [] then
              greedyLoop fdLoop (fun _ => 0) m
                (greedySweep fdLoop (fun _ => 0) (fairState fdLoop [0, 1] 2).hours
                  (fairState fdLoop [0, 1] 2))
            else some (fairState fdLoop [0, 1] 2)) = greedyLoop fdLoop (fun _ => 0) m stuckState
          rw [if_pos (by decide)]
          rfl
        rw [hstep]
        exact greedyLoop_stuck m
    rw [hA fuel]
    rfl
  rw [hnone] at hsome
  simp at hsome

/-! ### Claim C8: the stale fairness average -/

/-- Three buckets of sizes 1, 3 and 9; with target 7 the stale average is 2 for
the whole pass, while recomputing after bucket 0 is removed would raise it to 3
and change which buckets the fairness pass consumes. -/
def fdC8 : FilesDict :=
  [(0, ["a"]), (1, ["b1", "b2", "b3"]),
    (2, ["c1", "c2", "c3", "c4", "c5", "c6", "c7", "c8", "c9"])]

/-- C8: the fairness threshold is the single value `average_files` — the integer
floor division of the clamped target by the original number of buckets —
computed once before the pass and never recomputed after a bucket is removed;
and this is observable: on `fdC8` the result differs from the variant that
recomputes the average from the remaining state at each entry. -/
theorem C8_stale_average :
    (∀ (fd : FilesDict) (oracle : Nat → Nat) (fuel : Nat) (hours : List Nat) (t : Int),
        hours ≠ [] →
        distribute_files fd oracle fuel hours t =
          (greedyLoop fd oracle fuel
            (fairnessPass fd (average_files fd hours t) (buildCounts fd hours)
              (initState hours (clampedTarget fd hours t)))).map
            (fun st => (st.selected, st.cnt, st.hours))) ∧
      distribute_files fdC8 (fun _ => 0) 20 [0, 1, 2] 7 ≠
        distribute_files_recompute fdC8 (fun _ => 0) 20 [0, 1, 2] 7 := by
  constructor
  · intro fd oracle fuel hours t hne
    exact distribute_files_eq fd oracle fuel hours t hne
  · decide

/-- Closed witness for C8 at a concrete call. -/
theorem C8_stale_average_witness :
    distribute_files fdC8 (fun _ => 0) 20 [0, 1, 2] 7 =
      (greedyLoop fdC8 (fun _ => 0) 20
        (fairnessPass fdC8 (average_files fdC8 [0, 1, 2] 7) (buildCounts fdC8 [0, 1, 2])
          (initState [0, 1, 2] (clampedTarget fdC8 [0, 1, 2] 7)))).map
        (fun st => (st.selected, st.cnt, st.hours)) :=
  C8_stale_average.1 fdC8 (fun _ => 0) 20 [0, 1, 2] 7 (by decide)


/-! ### Facts about the post-fairness state of a call -/

theorem sum_map_congr {α : Type} {l : List α} {f g : α → Nat} (h : ∀ x ∈ l, f x = g x) :
    (l.map f).sum = (l.map g).sum := by
  rw [List.map_congr_left h]

theorem sum_map_le_sum_map {α : Type} {l : List α} {f g : α → Nat} (h : ∀ x ∈ l, f x ≤ g x) :
    (l.map f).sum ≤ (l.map g).sum := by
  induction l with
  | nil => simp
  | cons x l ih =>
    simp only [List.map_cons, List.sum_cons]
    have h1 := h x (by simp)
    have h2 := ih (fun y hy => h y (List.mem_cons_of_mem _ hy))
    omega

theorem smallEntries_subset {avg : Int} {L : CntMap} {p : Nat × Nat}
    (hp : p ∈ smallEntries avg L) : p ∈ L :=
  List.mem_of_mem_filter hp

theorem smallEntries_small {avg : Int} {L : CntMap} {p : Nat × Nat}
    (hp : p ∈ smallEntries avg L) : (p.2 : Int) ≤ avg := by
  have := List.of_mem_filter hp
  simpa using this

theorem smallSum_eq_cast (avg : Int) (L : CntMap) :
    smallSum avg L = (sumValues (smallEntries avg L) : Int) := by
  unfold smallSum sumValues
  induction smallEntries avg L with
  | nil => simp
  | cons p M ih =>
    simp only [List.map_cons, List.sum_cons, ih]
    push_cast
    ring

theorem smallSum_nonneg (avg : Int) (L : CntMap) : 0 ≤ smallSum avg L := by
  rw [smallSum_eq_cast]
  exact_mod_cast Nat.zero_le _

theorem smallSum_le_mul {avg : Int} (havg : 0 ≤ avg) (L : CntMap) :
    smallSum avg L ≤ (L.length : Int) * avg := by
  induction L with
  | nil => simp [smallSum, smallEntries]
  | cons p L ih =>
    obtain ⟨h, c⟩ := p
    by_cases hc : ((c : Nat) : Int) ≤ avg
    · simp only [smallSum, smallEntries_cons_small hc, List.map_cons, List.sum_cons]
      have h1 : smallSum avg L ≤ (L.length : Int) * avg := ih
      simp only [smallSum] at h1
      simp only [List.length_cons]
      push_cast
      nlinarith
    · simp only [smallSum, smallEntries_cons_big hc]
      have h1 : smallSum avg L ≤ (L.length : Int) * avg := ih
      simp only [smallSum] at h1
      simp only [List.length_cons]
      push_cast
      nlinarith

theorem clampedTarget_nonneg (fd : FilesDict) (hours : List Nat) {t : Int} (ht : 0 ≤ t) :
    0 ≤ clampedTarget fd hours t := by
  unfold clampedTarget
  by_cases hc : (totalAvailable fd hours : Int) < t
  · rw [if_pos hc]; exact_mod_cast Nat.zero_le _
  · rw [if_neg hc]; exact ht

theorem clampedTarget_le_total (fd : FilesDict) (hours : List Nat) (t : Int) :
    clampedTarget fd hours t ≤ (totalAvailable fd hours : Int) := by
  unfold clampedTarget
  by_cases hc : (totalAvailable fd hours : Int) < t
  · rw [if_pos hc]
  · rw [if_neg hc]; omega

theorem clampedTarget_le_t (fd : FilesDict) (hours : List Nat) (t : Int) :
    clampedTarget fd hours t ≤ t := by
  unfold clampedTarget
  by_cases hc : (totalAvailable fd hours : Int) < t
  · rw [if_pos hc]; omega
  · rw [if_neg hc]

theorem average_files_nonneg (fd : FilesDict) {hours : List Nat} {t : Int} (ht : 0 ≤ t) :
    0 ≤ average_files fd hours t :=
  Int.fdiv_nonneg (clampedTarget_nonneg fd hours ht) (by exact_mod_cast Nat.zero_le _)

theorem mul_average_le (fd : FilesDict) {hours : List Nat} (t : Int)
    (hne : hours ≠ []) :
    (hours.length : Int) * average_files fd hours t ≤ clampedTarget fd hours t := by
  unfold average_files
  set a := clampedTarget fd hours t with ha
  set b := (hours.length : Int) with hb
  have hb0 : 0 < b := by
    rw [hb]
    exact_mod_cast List.length_pos.mpr hne
  rw [Int.fdiv_eq_ediv _ (le_of_lt hb0)]
  have h1 := Int.ediv_add_emod a b
  have h2 := Int.emod_nonneg a (ne_of_gt hb0)
  linarith

theorem fairState_cnt (fd : FilesDict) (hours : List Nat) (t : Int) :
    (fairState fd hours t).cnt =
      smallEntries (average_files fd hours t) (buildCounts fd hours) := by
  unfold fairState
  rw [fairnessPass_cnt fd _ _ _ (by intro p hp; simp [initState, cntKeys])
    (buildCounts_keys_nodup fd hours)]
  simp [initState]

theorem fairState_selected (fd : FilesDict) (hours : List Nat) (t : Int) :
    (fairState fd hours t).selected =
      ((smallEntries (average_files fd hours t) (buildCounts fd hours)).map
        (fun p => dictGet fd p.1)).flatten := by
  unfold fairState
  rw [fairnessPass_selected]
  simp [initState]

theorem fairState_required (fd : FilesDict) (hours : List Nat) (t : Int) :
    (fairState fd hours t).required =
      clampedTarget fd hours t -
        smallSum (average_files fd hours t) (buildCounts fd hours) := by
  unfold fairState
  rw [fairnessPass_required]
  simp [initState]

theorem fairState_hours_sublist (fd : FilesDict) (hours : List Nat) (t : Int) :
    (fairState fd hours t).hours.Sublist hours := by
  unfold fairState
  have h1 := fairnessPass_hours_sublist fd (average_files fd hours t)
    (buildCounts fd hours) (initState hours (clampedTarget fd hours t))
  simpa [initState] using h1

theorem fairState_step (fd : FilesDict) (hours : List Nat) (t : Int) :
    (fairState fd hours t).step = 0 := by
  unfold fairState
  rw [fairnessPass_step]
  simp [initState]

theorem fairState_selected_length (fd : FilesDict) (hours : List Nat) (t : Int) :
    (fairState fd hours t).selected.length =
      sumValues (smallEntries (average_files fd hours t) (buildCounts fd hours)) := by
  rw [fairState_selected, List.length_flatten, List.map_map]
  unfold sumValues
  apply sum_map_congr
  intro p hp
  have := buildCounts_entries fd hours p (smallEntries_subset hp)
  simp only [Function.comp]
  exact this.symm

theorem fairState_sumValues (fd : FilesDict) (hours : List Nat) (t : Int) :
    sumValues (fairState fd hours t).cnt = (fairState fd hours t).selected.length := by
  rw [fairState_cnt, fairState_selected_length]

theorem fairState_conservation (fd : FilesDict) (hours : List Nat) (t : Int) :
    ((fairState fd hours t).selected.length : Int) + (fairState fd hours t).required =
      clampedTarget fd hours t := by
  rw [fairState_selected_length, fairState_required, smallSum_eq_cast]
  ring

theorem fairState_required_nonneg (fd : FilesDict) {hours : List Nat} {t : Int}
    (hne : hours ≠ []) (ht : 0 ≤ t) :
    0 ≤ (fairState fd hours t).required := by
  rw [fairState_required]
  have havg : 0 ≤ average_files fd hours t := average_files_nonneg fd ht
  have h1 := smallSum_le_mul havg (buildCounts fd hours)
  have h2 : ((buildCounts fd hours).length : Int) * average_files fd hours t ≤
      (hours.length : Int) * average_files fd hours t := by
    have hl : ((buildCounts fd hours).length : Int) ≤ (hours.length : Int) := by
      exact_mod_cast buildCounts_length_le fd hours
    nlinarith
  have h3 := mul_average_le fd t hne
  omega

theorem fairState_perbucket (fd : FilesDict) (hours : List Nat) (t : Int) :
    ∀ h', cntGet (fairState fd hours t).cnt h' +
        (availableFiles fd (fairState fd hours t).selected h').length ≤
      (dictGet fd h').length := by
  unfold fairState
  apply fairnessPass_perbucket
  · exact buildCounts_entries fd hours
  · intro h'
    simp only [initState, cntGet, Nat.zero_add]
    exact List.length_filter_le _ _

theorem fairState_keys_subset (fd : FilesDict) (hours : List Nat) (t : Int) :
    cntKeys (fairState fd hours t).cnt ⊆ cntKeys (buildCounts fd hours) := by
  rw [fairState_cnt]
  intro x hx
  unfold cntKeys at hx ⊢
  rcases List.mem_map.mp hx with ⟨p, hp, hpx⟩
  exact hpx ▸ List.mem_map_of_mem Prod.fst (smallEntries_subset hp)

theorem fairState_keys_nodup (fd : FilesDict) (hours : List Nat) (t : Int) :
    (cntKeys (fairState fd hours t).cnt).Nodup := by
  rw [fairState_cnt]
  have hsl : (smallEntries (average_files fd hours t) (buildCounts fd hours)).Sublist
      (buildCounts fd hours) := List.filter_sublist _
  exact (buildCounts_keys_nodup fd hours).sublist (hsl.map Prod.fst)

theorem fairState_provenance (fd : FilesDict) (hours : List Nat) (t : Int) :
    ∀ f ∈ (fairState fd hours t).selected, ∃ h ∈ hours, f ∈ dictGet fd h := by
  rw [fairState_selected]
  intro f hf
  rcases List.mem_flatten.mp hf with ⟨l, hl, hfl⟩
  rcases List.mem_map.mp hl with ⟨p, hp, hpl⟩
  refine ⟨p.1, ?_, hpl ▸ hfl⟩
  exact buildCounts_keys_subset fd hours
    (List.mem_map_of_mem Prod.fst (smallEntries_subset hp))


/-! ### Claim C1: the basic output invariants of `distribute_files` -/

/-- C1: whenever a call `distribute_files(hours, target)` with a nonnegative
target (the spec's input contract) returns, the per-hour selection counts sum
to the number of selected files, that number is at most the clamped target and
at most the total available count of the group, and every selected file lies in
`files_dict` under one of the group's hour keys. -/
theorem C1_selection_invariants (fd : FilesDict) (oracle : Nat → Nat) (fuel : Nat)
    (hours : List Nat) (t : Int) (sel : List String) (cnt : CntMap) (hrs : List Nat)
    (ht : 0 ≤ t)
    (hret : distribute_files fd oracle fuel hours t = some (sel, cnt, hrs)) :
    sumValues cnt = sel.length ∧
      (sel.length : Int) ≤ clampedTarget fd hours t ∧
      sel.length ≤ totalAvailable fd hours ∧
      ∀ f ∈ sel, ∃ h ∈ hours, f ∈ dictGet fd h := by
  obtain ⟨hne, st, hloop, hsel, hcnt, hhrs⟩ := distribute_files_some_elim hret
  subst hsel
  subst hcnt
  have hsum : sumValues st.cnt = st.selected.length := by
    refine greedyLoop_preserve fd oracle (fun s => sumValues s.cnt = s.selected.length)
      (fun s hp => greedySweep_sumValues fd oracle s.hours s hp) fuel _ st hloop ?_
    exact fairState_sumValues fd hours t
  have hb := greedyLoop_preserve fd oracle
    (fun s => ((s.selected.length : Int) + s.required = clampedTarget fd hours t) ∧
      0 ≤ s.required)
    (fun s hp => ⟨(greedySweep_conservation fd oracle s.hours s).trans hp.1,
      greedySweep_required_nonneg fd oracle s.hours s hp.2⟩)
    fuel _ st hloop
    ⟨fairState_conservation fd hours t, fairState_required_nonneg fd hne ht⟩
  have hper := greedyLoop_preserve fd oracle
    (fun s => ∀ h', cntGet s.cnt h' + (availableFiles fd s.selected h').length ≤
      (dictGet fd h').length)
    (fun s hp => greedySweep_perbucket fd oracle s.hours s hp) fuel _ st hloop
    (fairState_perbucket fd hours t)
  have hkeys := greedyLoop_preserve fd oracle
    (fun s => (cntKeys s.cnt ⊆ cntKeys (buildCounts fd hours)) ∧
      (cntKeys s.cnt).Nodup ∧ s.hours ⊆ hours)
    (fun s hp => by
      refine ⟨?_, (greedySweep_cntKeys fd oracle s.hours s).2 hp.2.1, ?_⟩
      · intro x hx
        have h1 := (greedySweep_cntKeys fd oracle s.hours s).1 hx
        rcases List.mem_append.mp h1 with h1 | h1
        · exact hp.1 h1
        · exact mem_buildCounts_keys fd (hp.2.2 h1)
      · rw [greedySweep_hours]
        exact hp.2.2)
    fuel _ st hloop
    ⟨fairState_keys_subset fd hours t, fairState_keys_nodup fd hours t,
      (fairState_hours_sublist fd hours t).subset⟩
  have hprov := greedyLoop_preserve fd oracle
    (fun s => (∀ f ∈ s.selected, ∃ h ∈ hours, f ∈ dictGet fd h) ∧ s.hours ⊆ hours)
    (fun s hp => by
      refine ⟨?_, by rw [greedySweep_hours]; exact hp.2⟩
      intro f hf
      rcases greedySweep_provenance fd oracle s.hours s f hf with h1 | ⟨x, hx, hfx⟩
      · exact hp.1 f h1
      · exact ⟨x, hp.2 hx, hfx⟩)
    fuel _ st hloop
    ⟨fairState_provenance fd hours t, (fairState_hours_sublist fd hours t).subset⟩
  refine ⟨hsum, ?_, ?_, hprov.1⟩
  · have h1 := hb.1
    have h2 := hb.2
    omega
  · rw [← hsum, sumValues_eq_sum_cntGet hkeys.2.1]
    calc ((cntKeys st.cnt).map (cntGet st.cnt)).sum
        ≤ ((cntKeys st.cnt).map (fun h => (dictGet fd h).length)).sum :=
          sum_map_le_sum_map (fun x _ => by have := hper x; omega)
      _ ≤ ((cntKeys (buildCounts fd hours)).map (fun h => (dictGet fd h).length)).sum :=
          sum_map_le_of_subset _ hkeys.2.1 hkeys.1
      _ = ((cntKeys (buildCounts fd hours)).map (cntGet (buildCounts fd hours))).sum := by
          apply sum_map_congr
          intro x hx
          exact (buildCounts_entries fd hours _ (cntGet_mem hx)).symm
      _ = sumValues (buildCounts fd hours) :=
          (sumValues_eq_sum_cntGet (buildCounts_keys_nodup fd hours)).symm
      _ = totalAvailable fd hours := rfl

/-- Closed witness for C1 at a concrete returning call. -/
theorem C1_selection_invariants_witness :
    sumValues [(1, 0), (0, 2)] = (["a", "b"] : List String).length ∧
      (((["a", "b"] : List String).length : Int) ≤ clampedTarget fdC2 [0, 1] 2) ∧
      (["a", "b"] : List String).length ≤ totalAvailable fdC2 [0, 1] ∧
      ∀ f ∈ (["a", "b"] : List String), ∃ h ∈ [0, 1], f ∈ dictGet fdC2 h :=
  C1_selection_invariants fdC2 (fun _ => 0) 3 [0, 1] 2 ["a", "b"] [(1, 0), (0, 2)] [0]
    (by decide) rfl


/-! ### Claim C7: no duplicate selections -/

/-- C7: when the per-hour bucket lists are pairwise disjoint and individually
duplicate-free, no file appears more than once in the selected list of a
returning `distribute_files` call. -/
theorem C7_no_duplicates (fd : FilesDict) (oracle : Nat → Nat) (fuel : Nat)
    (hours : List Nat) (t : Int) (sel : List String) (cnt : CntMap) (hrs : List Nat)
    (hdisj : PairwiseDisjoint fd hours) (hnb : NodupBuckets fd hours)
    (hret : distribute_files fd oracle fuel hours t = some (sel, cnt, hrs)) :
    sel.Nodup := by
  obtain ⟨hne, st, hloop, hsel, _, _⟩ := distribute_files_some_elim hret
  subst hsel
  refine greedyLoop_preserve fd oracle (fun s => s.selected.Nodup)
    (fun s hp => greedySweep_selected_nodup fd oracle s.hours s hp) fuel _ st hloop ?_
  unfold fairState
  apply fairnessPass_selected_nodup
  · simp [initState]
  · intro p hp
    exact hnb p.1 (buildCounts_keys_subset fd hours (List.mem_map_of_mem Prod.fst hp))
  · intro p hp f hf
    simp [initState]
  · exact buildCounts_keys_nodup fd hours
  · intro p hp q hq hne2
    exact hdisj p.1 (buildCounts_keys_subset fd hours (List.mem_map_of_mem Prod.fst hp))
      q.1 (buildCounts_keys_subset fd hours (List.mem_map_of_mem Prod.fst hq)) hne2

/-- Closed witness for C7 at a concrete returning call. -/
theorem C7_no_duplicates_witness : (["a", "b"] : List String).Nodup :=
  C7_no_duplicates fdC2 (fun _ => 0) 3 [0, 1] 2 ["a", "b"] [(1, 0), (0, 2)] [0]
    (by decide) (by decide) rfl

/-! ### Claim C6: when the fairness pass alone satisfies the request -/

theorem greedyLoop_hours_nil {fd : FilesDict} {oracle : Nat → Nat} {fuel : Nat}
    {st : DState} (hh : st.hours = []) :
    greedyLoop fd oracle fuel st = some st := by
  have hcond : ¬(0 < st.required ∧ st.hours ≠ []) := by simp [hh]
  cases fuel with
  | zero => simp [greedyLoop, if_neg hcond]
  | succ n => simp [greedyLoop, if_neg hcond]

/-- C6: if every bucket of the (duplicate-free, nonempty) group has size at
most the computed average, the fairness pass alone satisfies the request: the
call returns with every bucket taken whole, every per-hour count equal to the
bucket's full size, and the greedy pass contributing nothing — for every
oracle (randomness) and every fuel bound. -/
theorem C6_fairness_only (fd : FilesDict) (oracle : Nat → Nat) (fuel : Nat)
    (hours : List Nat) (t : Int)
    (hne : hours ≠ []) (hnd : hours.Nodup)
    (hsmall : ∀ h ∈ hours, ((dictGet fd h).length : Int) ≤ average_files fd hours t) :
    distribute_files fd oracle fuel hours t =
      some ((hours.map (fun h => dictGet fd h)).flatten,
        hours.map (fun h => (h, (dictGet fd h).length)),
        []) := by
  rw [distribute_files_eq fd oracle fuel hours t hne]
  have hfilter : hours.filter (bucketSmall fd (average_files fd hours t)) = hours :=
    List.filter_eq_self.mpr (fun h hh => decide_eq_true (hsmall h hh))
  have hfilter2 : hours.filter (fun h => !bucketSmall fd (average_files fd hours t) h) = [] := by
    rw [List.filter_eq_nil_iff]
    intro h hh
    have : bucketSmall fd (average_files fd hours t) h = true := decide_eq_true (hsmall h hh)
    simp [this]
  have hspec : fairState fd hours t =
      { selected := (hours.map (fun h => dictGet fd h)).flatten
        cnt := hours.map (fun h => (h, (dictGet fd h).length))
        hours := []
        required := clampedTarget fd hours t -
          ((hours.map (fun h => ((dictGet fd h).length : Int))).sum)
        step := 0 } := by
    unfold fairState
    rw [buildCounts_eq_map fd hnd, fairnessPass_init_spec fd _ hnd]
    rw [hfilter, hfilter2]
  rw [hspec, greedyLoop_hours_nil rfl]
  rfl

/-- The concrete input for the C6 witness: two buckets of size 1, target 4. -/
def fdC6 : FilesDict := [(0, ["a"]), (1, ["b"])]

/-- Closed witness for C6 at a concrete call. -/
theorem C6_fairness_only_witness :
    distribute_files fdC6 (fun _ => 0) 1 [0, 1] 4 =
      some ((([0, 1] : List Nat).map (fun h => dictGet fdC6 h)).flatten,
        ([0, 1] : List Nat).map (fun h => (h, (dictGet fdC6 h).length)),
        []) :=
  C6_fairness_only fdC6 (fun _ => 0) 1 [0, 1] 4 (by decide) (by decide) (by decide)


/-! ### Claim C4 (amended): termination under disjoint duplicate-free buckets -/

theorem sum_map_intCast (l : List Nat) (g : Nat → Nat) :
    (l.map (fun h => (g h : Int))).sum = ((l.map g).sum : Int) := by
  induction l with
  | nil => simp
  | cons x l ih =>
    simp only [List.map_cons, List.sum_cons, ih]
    push_cast
    ring

theorem fairState_spec (fd : FilesDict) {hours : List Nat} (hnd : hours.Nodup) (t : Int) :
    fairState fd hours t =
      { selected := ((hours.filter (bucketSmall fd (average_files fd hours t))).map
          (fun h => dictGet fd h)).flatten
        cnt := (hours.filter (bucketSmall fd (average_files fd hours t))).map
          (fun h => (h, (dictGet fd h).length))
        hours := hours.filter (fun h => !bucketSmall fd (average_files fd hours t) h)
        required := clampedTarget fd hours t -
          ((hours.filter (bucketSmall fd (average_files fd hours t))).map
            (fun h => ((dictGet fd h).length : Int))).sum
        step := 0 } := by
  unfold fairState
  rw [buildCounts_eq_map fd hnd, fairnessPass_init_spec fd _ hnd]

theorem avail_after_fairness (fd : FilesDict) {hours : List Nat}
    (hdisj : PairwiseDisjoint fd hours) {avg : Int} {h : Nat}
    (hh : h ∈ hours) (hbig : bucketSmall fd avg h = false) :
    availableFiles fd
        ((hours.filter (bucketSmall fd avg)).map (fun x => dictGet fd x)).flatten h =
      dictGet fd h := by
  unfold availableFiles
  apply List.filter_eq_self.mpr
  intro f hf
  simp only [decide_eq_true_eq]
  intro hmem
  rcases List.mem_flatten.mp hmem with ⟨l, hl, hfl⟩
  rcases List.mem_map.mp hl with ⟨x, hx, hxl⟩
  have hxh : x ≠ h := by
    intro he
    have hx2 := (List.mem_filter.mp hx).2
    rw [he, hbig] at hx2
    exact Bool.false_ne_true hx2
  exact hdisj x (List.mem_of_mem_filter hx) h hh hxh f (hxl ▸ hfl) hf

/-- C4 amended: under the clamp invariant with a duplicate-free hour list and
pairwise-disjoint, duplicate-free buckets, the greedy fill pass cannot exhaust
the buckets before the requirement reaches 0, and `distribute_files` returns
for every oracle once the fuel covers the (clamped) target. -/
theorem C4_amended_termination (fd : FilesDict) (oracle : Nat → Nat) (fuel : Nat)
    (hours : List Nat) (t : Int)
    (hne : hours ≠ []) (hnd : hours.Nodup)
    (hdisj : PairwiseDisjoint fd hours) (hnb : NodupBuckets fd hours)
    (_ht : 0 ≤ t) (hfuel : t.toNat ≤ fuel) :
    (distribute_files fd oracle fuel hours t).isSome := by
  rw [distribute_files_eq fd oracle fuel hours t hne]
  rw [Option.isSome_map']
  have hbigsub : ∀ h ∈ hours.filter (fun h => !bucketSmall fd (average_files fd hours t) h),
      h ∈ hours := fun h hh => List.mem_of_mem_filter hh
  apply @greedyLoop_isSome fd oracle
    (hours.filter (fun h => !bucketSmall fd (average_files fd hours t) h))
    (hnd.filter _)
    (PairwiseDisjoint_restrict hbigsub hdisj)
    (NodupBuckets_restrict hbigsub hnb)
  · rw [fairState_spec fd hnd t]
  · rw [fairState_spec fd hnd t]
    simp only
    have havt : availTotal fd
        (hours.filter (fun h => !bucketSmall fd (average_files fd hours t) h))
        (((hours.filter (bucketSmall fd (average_files fd hours t))).map
          (fun h => dictGet fd h)).flatten) =
        ((hours.filter (fun h => !bucketSmall fd (average_files fd hours t) h)).map
          (fun h => (dictGet fd h).length)).sum := by
      unfold availTotal
      apply sum_map_congr
      intro h hh
      have hb : bucketSmall fd (average_files fd hours t) h = false := by
        have := (List.mem_filter.mp hh).2
        simpa using this
      rw [avail_after_fairness fd hdisj (hbigsub h hh) hb]
    rw [havt]
    have hsplit := sum_map_filter_split (fun h => (dictGet fd h).length)
      (bucketSmall fd (average_files fd hours t)) hours
    have htot : clampedTarget fd hours t ≤ (totalAvailable fd hours : Int) :=
      clampedTarget_le_total fd hours t
    rw [totalAvailable_eq_sum fd hnd] at htot
    rw [sum_map_intCast]
    omega
  · have h1 : (fairState fd hours t).required ≤ t := by
      rw [fairState_required fd hours t]
      have h2 := smallSum_nonneg (average_files fd hours t) (buildCounts fd hours)
      have h3 := clampedTarget_le_t fd hours t
      omega
    exact le_trans (Int.toNat_le_toNat h1) hfuel

/-- Closed witness for the amended C4 at a concrete input. -/
theorem C4_amended_termination_witness :
    (distribute_files fdC2 (fun _ => 0) 3 [0, 1] 2).isSome :=
  C4_amended_termination fdC2 (fun _ => 0) 3 [0, 1] 2 (by decide) (by decide)
    (by decide) (by decide) (by decide) (by decide)


/-! ### Claim C5: full take when the target covers the whole supply -/

theorem flatten_buckets_nodup (fd : FilesDict) {hs : List Nat} (hnd : hs.Nodup)
    (hdisj : PairwiseDisjoint fd hs) (hnb : NodupBuckets fd hs) :
    ((hs.map (fun h => dictGet fd h)).flatten).Nodup := by
  rw [List.nodup_flatten]
  constructor
  · intro l hl
    rcases List.mem_map.mp hl with ⟨h, hh, rfl⟩
    exact hnb h hh
  · rw [List.pairwise_map]
    refine List.Pairwise.imp_of_mem ?_ hnd
    intro a b ha hb hab
    intro x hxa hxb
    exact hdisj a ha b hb hab x hxa hxb

theorem mem_flatten_buckets {fd : FilesDict} {hs : List Nat} {h : Nat} {f : String}
    (hh : h ∈ hs) (hf : f ∈ dictGet fd h) :
    f ∈ (hs.map (fun x => dictGet fd x)).flatten :=
  List.mem_flatten.mpr ⟨dictGet fd h, List.mem_map_of_mem _ hh, hf⟩

theorem greedySweep_perbucket_eq (fd : FilesDict) (oracle : Nat → Nat) {H : List Nat}
    (hdisj : PairwiseDisjoint fd H) (hnb : NodupBuckets fd H) :
    ∀ (pr : List Nat) (st : DState), (∀ h ∈ pr, h ∈ H) →
      (∀ h ∈ H, cntGet st.cnt h + (availableFiles fd st.selected h).length =
        (dictGet fd h).length) →
      ∀ h ∈ H, cntGet (greedySweep fd oracle pr st).cnt h +
          (availableFiles fd (greedySweep fd oracle pr st).selected h).length =
        (dictGet fd h).length := by
  intro pr
  induction pr with
  | nil => intro st _ hinv h hh; simpa [greedySweep] using hinv h hh
  | cons x rest ih =>
    intro st hsub hinv h hh
    by_cases hreq : st.required ≤ 0
    · simpa [greedySweep, if_pos hreq] using hinv h hh
    · by_cases hav : availableFiles fd st.selected x = []
      · simp only [greedySweep, if_neg hreq, hav, if_pos]
        exact ih st (fun a ha => hsub a (List.mem_cons_of_mem _ ha)) hinv h hh
      · simp only [greedySweep, if_neg hreq, if_neg hav]
        refine ih _ (fun a ha => hsub a (List.mem_cons_of_mem _ ha)) ?_ h hh
        intro y hy
        have hmem := chooseFrom_mem hav (oracle st.step)
        rcases mem_availableFiles.mp hmem with ⟨hb, hnot⟩
        by_cases hxy : x = y
        · subst hxy
          simp only [cntGet_cntSet_self]
          have hex := availableFiles_pick_exact (hnb x (hsub x (by simp))) hb hnot
          have := hinv x (hsub x (by simp))
          omega
        · simp only [cntGet_cntSet_other _ (fun he => hxy he) _]
          have hfy : chooseFrom (oracle st.step) (availableFiles fd st.selected x) ∉
              dictGet fd y :=
            hdisj x (hsub x (by simp)) y hy hxy _ hb
          rw [availableFiles_unchanged hfy]
          exact hinv y hy

theorem fairState_perbucket_eq (fd : FilesDict) {hours : List Nat} (hnd : hours.Nodup)
    (hdisj : PairwiseDisjoint fd hours) (t : Int) :
    ∀ h ∈ hours, cntGet (fairState fd hours t).cnt h +
        (availableFiles fd (fairState fd hours t).selected h).length =
      (dictGet fd h).length := by
  intro h hh
  rw [fairState_spec fd hnd t]
  simp only
  by_cases hsm : bucketSmall fd (average_files fd hours t) h = true
  · have hmemf : h ∈ hours.filter (bucketSmall fd (average_files fd hours t)) :=
      List.mem_filter.mpr ⟨hh, hsm⟩
    rw [cntGet_map_self hmemf]
    have hzero : availableFiles fd
        (((hours.filter (bucketSmall fd (average_files fd hours t))).map
          (fun h => dictGet fd h)).flatten) h = [] := by
      rw [availableFiles_nil_iff]
      intro f hf
      exact mem_flatten_buckets hmemf hf
    rw [hzero]
    simp
  · have hb : bucketSmall fd (average_files fd hours t) h = false := by
      simpa using hsm
    have hnm : h ∉ hours.filter (bucketSmall fd (average_files fd hours t)) := by
      intro hc
      rw [(List.mem_filter.mp hc).2] at hb
      simp at hb
    rw [cntGet_map_not_mem hnm]
    rw [avail_after_fairness fd hdisj hh hb]
    simp

theorem fairState_availTotal (fd : FilesDict) {hours : List Nat} (hnd : hours.Nodup)
    (hdisj : PairwiseDisjoint fd hours) (t : Int) :
    availTotal fd (hours.filter (fun h => !bucketSmall fd (average_files fd hours t) h))
        (fairState fd hours t).selected =
      ((hours.filter (fun h => !bucketSmall fd (average_files fd hours t) h)).map
        (fun h => (dictGet fd h).length)).sum := by
  rw [fairState_spec fd hnd t]
  simp only
  unfold availTotal
  apply sum_map_congr
  intro h hh
  have hb : bucketSmall fd (average_files fd hours t) h = false := by
    have := (List.mem_filter.mp hh).2
    simpa using this
  rw [avail_after_fairness fd hdisj (List.mem_of_mem_filter hh) hb]

theorem clampedTarget_eq_total (fd : FilesDict) {hours : List Nat} {t : Int}
    (hbig : (totalAvailable fd hours : Int) ≤ t) :
    clampedTarget fd hours t = (totalAvailable fd hours : Int) := by
  unfold clampedTarget
  by_cases hc : (totalAvailable fd hours : Int) < t
  · rw [if_pos hc]
  · rw [if_neg hc]; omega

theorem fairState_required_eq_avail (fd : FilesDict) {hours : List Nat} {t : Int}
    (hnd : hours.Nodup) (hdisj : PairwiseDisjoint fd hours)
    (hbig : (totalAvailable fd hours : Int) ≤ t) :
    (fairState fd hours t).required =
      (availTotal fd (hours.filter (fun h => !bucketSmall fd (average_files fd hours t) h))
        (fairState fd hours t).selected : Int) := by
  rw [fairState_availTotal fd hnd hdisj t]
  have hreq : (fairState fd hours t).required = clampedTarget fd hours t -
      ((hours.filter (bucketSmall fd (average_files fd hours t))).map
        (fun h => ((dictGet fd h).length : Int))).sum := by
    rw [fairState_spec fd hnd t]
  rw [hreq, clampedTarget_eq_total fd hbig, totalAvailable_eq_sum fd hnd]
  have hsplit := sum_map_filter_split (fun h => (dictGet fd h).length)
    (bucketSmall fd (average_files fd hours t)) hours
  rw [sum_map_intCast]
  omega


/-- C5: when the target covers the whole supply of a duplicate-free group with
pairwise-disjoint duplicate-free buckets, `distribute_files` returns (given
fuel covering the supply) and the result is the full available set: the
selected list is a permutation of the concatenation of all buckets, and every
hour's selection count equals its bucket's full size. -/
theorem C5_full_take (fd : FilesDict) (oracle : Nat → Nat) (fuel : Nat)
    (hours : List Nat) (t : Int)
    (hne : hours ≠ []) (hnd : hours.Nodup)
    (hdisj : PairwiseDisjoint fd hours) (hnb : NodupBuckets fd hours)
    (hbig : (totalAvailable fd hours : Int) ≤ t)
    (hfuel : totalAvailable fd hours ≤ fuel) :
    (distribute_files fd oracle fuel hours t).isSome ∧
      ∀ sel cnt hrs, distribute_files fd oracle fuel hours t = some (sel, cnt, hrs) →
        sel.Perm ((hours.map (fun h => dictGet fd h)).flatten) ∧
        ∀ h ∈ hours, cntGet cnt h = (dictGet fd h).length := by
  have hbigsub : ∀ h ∈ (hours.filter (fun h => !bucketSmall fd (average_files fd hours t) h)), h ∈ hours := fun h hh => List.mem_of_mem_filter hh
  have hsmallsub : ∀ h ∈ hours.filter (bucketSmall fd (average_files fd hours t)), h ∈ hours :=
    fun h hh => List.mem_of_mem_filter hh
  have hbhnd := hnd.filter (fun h => !bucketSmall fd (average_files fd hours t) h)
  have hbhdisj := PairwiseDisjoint_restrict hbigsub hdisj
  have hbhnb := NodupBuckets_restrict hbigsub hnb
  have hreqeq := fairState_required_eq_avail fd hnd hdisj hbig
  have hhours1 : (fairState fd hours t).hours = (hours.filter (fun h => !bucketSmall fd (average_files fd hours t) h)) := by
    rw [fairState_spec fd hnd t]
  have hsel1 : (fairState fd hours t).selected = (((hours.filter (bucketSmall fd (average_files fd hours t))).map (fun h => dictGet fd h)).flatten) := by
    rw [fairState_spec fd hnd t]
  have hsome : (greedyLoop fd oracle fuel (fairState fd hours t)).isSome := by
    apply greedyLoop_isSome fd oracle hbhnd hbhdisj hbhnb fuel _ hhours1 (le_of_eq hreqeq)
    rw [hreqeq, Int.toNat_natCast]
    refine le_trans ?_ hfuel
    rw [fairState_availTotal fd hnd hdisj t, totalAvailable_eq_sum fd hnd]
    have hsplit := sum_map_filter_split (fun h => (dictGet fd h).length)
      (bucketSmall fd (average_files fd hours t)) hours
    omega
  constructor
  · rw [distribute_files_eq fd oracle fuel hours t hne, Option.isSome_map']
    exact hsome
  · intro sel cnt hrs hret
    obtain ⟨_, st, hloop, hself, hcnte, hhrse⟩ := distribute_files_some_elim hret
    subst hself
    subst hcnte
    have hP := greedyLoop_preserve fd oracle
      (fun s => s.hours = (hours.filter (fun h => !bucketSmall fd (average_files fd hours t) h)) ∧
        (s.required = (availTotal fd (hours.filter (fun h => !bucketSmall fd (average_files fd hours t) h)) s.selected : Int)) ∧
        (∀ h ∈ hours, cntGet s.cnt h + (availableFiles fd s.selected h).length =
          (dictGet fd h).length) ∧
        s.selected.Nodup ∧
        (∀ f ∈ (((hours.filter (bucketSmall fd (average_files fd hours t))).map (fun h => dictGet fd h)).flatten), f ∈ s.selected) ∧
        (∀ f ∈ s.selected, f ∈ ((hours.map (fun h => dictGet fd h)).flatten)))
      (fun s hp => by
        obtain ⟨h1, h2, h3, h4, h5, h6⟩ := hp
        have hsw := greedySweep_hours fd oracle s.hours s
        have hsub : ∀ h ∈ s.hours, h ∈ (hours.filter (fun h => !bucketSmall fd (average_files fd hours t) h)) := by
          rw [h1]
          exact fun a ha => ha
        refine ⟨?_, ?_, ?_, ?_, ?_, ?_⟩
        · rw [hsw, h1]
        · have hdiff := greedySweep_availTotal fd oracle hbhnd hbhdisj hbhnb s.hours s hsub
          omega
        · exact greedySweep_perbucket_eq fd oracle hdisj hnb s.hours s
            (fun a ha => hbigsub a (hsub a ha)) h3
        · exact greedySweep_selected_nodup fd oracle s.hours s h4
        · intro f hf
          obtain ⟨ext, hext⟩ := greedySweep_selected_ext fd oracle s.hours s
          rw [hext]
          exact List.mem_append_left _ (h5 f hf)
        · intro f hf
          rcases greedySweep_provenance fd oracle s.hours s f hf with hc | ⟨x, hx, hfx⟩
          · exact h6 f hc
          · exact mem_flatten_buckets (hbigsub x (hsub x hx)) hfx)
      fuel _ st hloop
      ⟨hhours1, hreqeq, fairState_perbucket_eq fd hnd hdisj t,
        by
          rw [hsel1]
          exact flatten_buckets_nodup fd (hnd.filter _)
            (PairwiseDisjoint_restrict hsmallsub hdisj)
            (NodupBuckets_restrict hsmallsub hnb),
        by
          rw [hsel1]
          exact fun f hf => hf,
        by
          rw [hsel1]
          intro f hf
          rcases List.mem_flatten.mp hf with ⟨l, hl, hfl⟩
          rcases List.mem_map.mp hl with ⟨h, hh, rfl⟩
          exact mem_flatten_buckets (hsmallsub h hh) hfl⟩
    obtain ⟨hp1, hp2, hp3, hp4, hp5, hp6⟩ := hP
    have hexit := greedyLoop_exit fd oracle fuel _ st hloop
    have hzero : availTotal fd (hours.filter (fun h => !bucketSmall fd (average_files fd hours t) h)) st.selected = 0 := by
      rcases hexit with hr | hh
      · omega
      · have hbe : (hours.filter (fun h => !bucketSmall fd (average_files fd hours t) h)) = ([] : List Nat) := by
          rw [← hp1]
          exact hh
        rw [hbe]
        simp [availTotal]
    have havail0 : ∀ h ∈ hours, (availableFiles fd st.selected h).length = 0 := by
      intro h hh
      by_cases hsm : bucketSmall fd (average_files fd hours t) h = true
      · have hnil : availableFiles fd st.selected h = [] := by
          rw [availableFiles_nil_iff]
          intro f hf
          exact hp5 f (mem_flatten_buckets (List.mem_filter.mpr ⟨hh, hsm⟩) hf)
        rw [hnil]
        rfl
      · have hmem : h ∈ (hours.filter (fun h => !bucketSmall fd (average_files fd hours t) h)) :=
          List.mem_filter.mpr ⟨hh, by simpa using hsm⟩
        unfold availTotal at hzero
        exact sum_map_zero_of_total hzero h hmem
    have hcc : ∀ h ∈ hours, cntGet st.cnt h = (dictGet fd h).length := by
      intro h hh
      have := hp3 h hh
      have h0 := havail0 h hh
      omega
    refine ⟨?_, hcc⟩
    apply (List.perm_ext_iff_of_nodup hp4 (flatten_buckets_nodup fd hnd hdisj hnb)).mpr
    intro f
    constructor
    · exact hp6 f
    · intro hf
      rcases List.mem_flatten.mp hf with ⟨l, hl, hfl⟩
      rcases List.mem_map.mp hl with ⟨h, hh, rfl⟩
      have h0 := havail0 h hh
      rw [List.length_eq_zero] at h0
      exact availableFiles_nil_iff.mp h0 f hfl

/-- The concrete input for the C5 witness. -/
def fdC5 : FilesDict := [(6, ["d1", "d2"]), (7, ["d3"])]

/-- Closed witness for C5 at a concrete call: the call returns. -/
theorem C5_full_take_witness :
    (distribute_files fdC5 (fun _ => 0) 3 [6, 7] 5).isSome :=
  (C5_full_take fdC5 (fun _ => 0) 3 [6, 7] 5 (by decide) (by decide) (by decide)
    (by decide) (by decide) (by decide)).1


/-! ### Claim C9: the DAY_HOURS mutation propagates to the copy phase and report -/

theorem single_le_sum_map {l : List Nat} (g : Nat → Nat) {h : Nat} (hh : h ∈ l) :
    g h ≤ (l.map g).sum := by
  induction l with
  | nil => simp at hh
  | cons x rest ih =>
    simp only [List.map_cons, List.sum_cons]
    rcases List.mem_cons.mp hh with hx | hx
    · subst hx; omega
    · have := ih hx; omega

theorem distribute_hours_result (fd : FilesDict) (oracle : Nat → Nat) (fuel : Nat)
    {hours : List Nat} (hnd : hours.Nodup) {t : Int} {sel : List String} {cnt : CntMap}
    {hrs : List Nat}
    (hret : distribute_files fd oracle fuel hours t = some (sel, cnt, hrs)) :
    hrs = hours.filter (fun h => !bucketSmall fd (average_files fd hours t) h) := by
  obtain ⟨hne, st, hloop, _, _, hhrs⟩ := distribute_files_some_elim hret
  have hpres := greedyLoop_preserve fd oracle
    (fun s => s.hours = hours.filter (fun h => !bucketSmall fd (average_files fd hours t) h))
    (fun s hp => by
      show (greedySweep fd oracle s.hours s).hours = _
      rw [greedySweep_hours]
      exact hp)
    fuel _ st hloop (by rw [fairState_spec fd hnd t])
  rw [← hhrs, hpres]

/-- C9: if the fairness pass of the day call fully consumes the bucket of a day
hour `h` (its size is at most the computed average), then `h` has been removed
from the shared `DAY_HOURS` list in place, so the "daynight" full-copy phase
sends every file of that hour to `full/nighttime` instead of `full/daytime`,
and the report's daytime available total excludes that bucket's files. -/
theorem C9_day_mutation_propagates (fd : FilesDict) (oracle : Nat → Nat) (fuel : Nat)
    (t : Int) (h : Nat) (sel : List String) (cnt : CntMap) (dayRest : List Nat)
    (hmem : h ∈ DAY_HOURS)
    (hsmall : ((dictGet fd h).length : Int) ≤ average_files fd DAY_HOURS t)
    (hret : distribute_files fd oracle fuel DAY_HOURS t = some (sel, cnt, dayRest)) :
    h ∉ dayRest ∧
      (∀ f, extractHour? f = some h → fullCopyDest dayRest f = some false) ∧
      totalDaytimeImages fd dayRest + (dictGet fd h).length ≤
        totalDaytimeImages fd DAY_HOURS := by
  have hnd : DAY_HOURS.Nodup := by decide
  have hrs := distribute_hours_result fd oracle fuel hnd hret
  have hsm : bucketSmall fd (average_files fd DAY_HOURS t) h = true := decide_eq_true hsmall
  have hnotin : h ∉ dayRest := by
    rw [hrs]
    intro hc
    have h2 := (List.mem_filter.mp hc).2
    rw [hsm] at h2
    simp at h2
  refine ⟨hnotin, ?_, ?_⟩
  · intro f hf
    unfold fullCopyDest
    rw [hf]
    show some (decide (h ∈ dayRest)) = some false
    rw [decide_eq_false hnotin]
  · unfold totalDaytimeImages
    rw [hrs]
    have hsplit := sum_map_filter_split (fun h => (dictGet fd h).length)
      (bucketSmall fd (average_files fd DAY_HOURS t)) DAY_HOURS
    have hsingle : (dictGet fd h).length ≤
        ((DAY_HOURS.filter (bucketSmall fd (average_files fd DAY_HOURS t))).map
          (fun h => (dictGet fd h).length)).sum :=
      single_le_sum_map (fun h => (dictGet fd h).length) (List.mem_filter.mpr ⟨hmem, hsm⟩)
    omega

/-- The concrete C9 witness input: the fairness pass consumes day bucket 6
(one file, average 1) and the greedy pass draws 12 of bucket 7's 20 files. -/
def fdC9 : FilesDict :=
  [(6, ["x"]),
    (7, ["f01", "f02", "f03", "f04", "f05", "f06", "f07", "f08", "f09", "f10",
      "f11", "f12", "f13", "f14", "f15", "f16", "f17", "f18", "f19", "f20"])]

/-- Closed witness for C9 at a concrete call: after the day call, hour 6 is no
longer in the mutated hours list. -/
theorem C9_day_mutation_propagates_witness : (6 : Nat) ∉ [(7 : Nat)] :=
  (C9_day_mutation_propagates fdC9 (fun _ => 0) 13 13 6
    ["x", "f01", "f02", "f03", "f04", "f05", "f06", "f07", "f08", "f09", "f10", "f11", "f12"]
    [(6, 1), (8, 0), (9, 0), (10, 0), (11, 0), (12, 0), (13, 0), (14, 0), (15, 0), (16, 0),
      (17, 0), (7, 12)]
    [7] (by decide) (by decide) rfl).1

/-! ### Claim C10: out-of-range hours are accepted, never selected, copied to nighttime -/

theorem buildFilesDictAux_invariant :
    ∀ (fs : List String) (d fd : FilesDict),
      (∀ h x, x ∈ dictGet d h → extractHour? x = some h) →
      buildFilesDictAux fs d = some fd →
      ∀ h x, x ∈ dictGet fd h → extractHour? x = some h := by
  intro fs
  induction fs with
  | nil =>
    intro d fd hinv hbuild
    simp only [buildFilesDictAux, Option.some_inj] at hbuild
    exact hbuild ▸ hinv
  | cons g gs ih =>
    intro d fd hinv hbuild
    rcases hg : extractHour? g with _ | hgv
    · simp [buildFilesDictAux, hg] at hbuild
    · simp only [buildFilesDictAux, hg] at hbuild
      refine ih _ fd ?_ hbuild
      intro h x hx
      by_cases hhg : hgv = h
      · subst hhg
        rw [dictGet_dictSet_self] at hx
        rcases List.mem_append.mp hx with hx | hx
        · exact hinv hgv x hx
        · rw [List.mem_singleton.mp hx]
          exact hg
      · rw [dictGet_dictSet_other _ hhg] at hx
        exact hinv h x hx

theorem buildFilesDict_invariant {allFiles : List String} {fd : FilesDict}
    (hbuild : buildFilesDict allFiles = some fd) :
    ∀ h x, x ∈ dictGet fd h → extractHour? x = some h :=
  buildFilesDictAux_invariant allFiles [] fd (by intro h x hx; simp [dictGet] at hx) hbuild

theorem buildFilesDictAux_mem :
    ∀ (fs : List String) (d fd : FilesDict) (f : String) (h : Nat),
      buildFilesDictAux fs d = some fd → extractHour? f = some h →
      (f ∈ fs ∨ f ∈ dictGet d h) → f ∈ dictGet fd h := by
  intro fs
  induction fs with
  | nil =>
    intro d fd f h hbuild hf hmem
    simp only [buildFilesDictAux, Option.some_inj] at hbuild
    rcases hmem with hc | hc
    · simp at hc
    · exact hbuild ▸ hc
  | cons g gs ih =>
    intro d fd f h hbuild hf hmem
    rcases hg : extractHour? g with _ | hgv
    · simp [buildFilesDictAux, hg] at hbuild
    · simp only [buildFilesDictAux, hg] at hbuild
      rcases hmem with hc | hc
      · rcases List.mem_cons.mp hc with hc | hc
        · subst hc
          have hgh : hgv = h := by
            rw [hf] at hg
            exact (Option.some_inj.mp hg).symm
          subst hgh
          refine ih _ fd f hgv hbuild hf (Or.inr ?_)
          rw [dictGet_dictSet_self]
          exact List.mem_append_right _ (by simp)
        · exact ih _ fd f h hbuild hf (Or.inl hc)
      · refine ih _ fd f h hbuild hf (Or.inr ?_)
        by_cases hhg : hgv = h
        · subst hhg
          rw [dictGet_dictSet_self]
          exact List.mem_append_left _ hc
        · rw [dictGet_dictSet_other _ hhg]
          exact hc

theorem distribute_selected_provenance (fd : FilesDict) (oracle : Nat → Nat) (fuel : Nat)
    {hours : List Nat} {t : Int} {sel : List String} {cnt : CntMap} {hrs : List Nat}
    (hret : distribute_files fd oracle fuel hours t = some (sel, cnt, hrs)) :
    ∀ f ∈ sel, ∃ h ∈ hours, f ∈ dictGet fd h := by
  obtain ⟨hne, st, hloop, hsel, _, _⟩ := distribute_files_some_elim hret
  subst hsel
  have hprov := greedyLoop_preserve fd oracle
    (fun s => (∀ f ∈ s.selected, ∃ h ∈ hours, f ∈ dictGet fd h) ∧ s.hours ⊆ hours)
    (fun s hp => by
      refine ⟨?_, by rw [greedySweep_hours]; exact hp.2⟩
      intro f hf
      rcases greedySweep_provenance fd oracle s.hours s f hf with h1 | ⟨x, hx, hfx⟩
      · exact hp.1 f h1
      · exact ⟨x, hp.2 hx, hfx⟩)
    fuel _ st hloop
    ⟨fairState_provenance fd hours t, (fairState_hours_sublist fd hours t).subset⟩
  exact hprov.1

theorem distribute_hours_subset (fd : FilesDict) (oracle : Nat → Nat) (fuel : Nat)
    {hours : List Nat} {t : Int} {sel : List String} {cnt : CntMap} {hrs : List Nat}
    (hret : distribute_files fd oracle fuel hours t = some (sel, cnt, hrs)) :
    hrs ⊆ hours := by
  obtain ⟨hne, st, hloop, _, _, hhrs⟩ := distribute_files_some_elim hret
  have hpres := greedyLoop_preserve fd oracle (fun s => s.hours ⊆ hours)
    (fun s hp => by
      show (greedySweep fd oracle s.hours s).hours ⊆ hours
      rw [greedySweep_hours]
      exact hp)
    fuel _ st hloop ((fairState_hours_sublist fd hours t).subset)
  exact hhrs ▸ hpres

theorem DAY_HOURS_bounds : ∀ h ∈ DAY_HOURS, h < 18 := by decide

theorem NIGHT_HOURS_bounds : ∀ h ∈ NIGHT_HOURS, h < 24 := by decide

/-- C10: a filename whose fifth dash-field begins with a two-digit number
outside [0,23] is accepted by the categorization step and bucketed under that
out-of-range hour key; it is never selected into the day or the night subset,
since its key belongs to neither DAY_HOURS nor NIGHT_HOURS; and the "daynight"
full-copy phase sends it to the nighttime directory. -/
theorem C10_out_of_range_never_selected (allFiles : List String) (fd : FilesDict)
    (f : String) (h : Nat) (oracleD oracleN : Nat → Nat) (fuelD fuelN : Nat) (tD tN : Int)
    (selD : List String) (cntD : CntMap) (dayRest : List Nat)
    (selN : List String) (cntN : CntMap) (nightRest : List Nat)
    (hbuild : buildFilesDict allFiles = some fd)
    (hf : extractHour? f = some h) (hout : 23 < h)
    (hday : distribute_files fd oracleD fuelD DAY_HOURS tD = some (selD, cntD, dayRest))
    (hnight : distribute_files fd oracleN fuelN NIGHT_HOURS tN = some (selN, cntN, nightRest)) :
    (f ∈ allFiles → f ∈ dictGet fd h) ∧
      f ∉ selD ∧ f ∉ selN ∧ fullCopyDest dayRest f = some false := by
  refine ⟨?_, ?_, ?_, ?_⟩
  · intro hmem
    exact buildFilesDictAux_mem allFiles [] fd f h hbuild hf (Or.inl hmem)
  · intro hc
    rcases distribute_selected_provenance fd oracleD fuelD hday f hc with ⟨x, hx, hfx⟩
    have := buildFilesDict_invariant hbuild x f hfx
    rw [hf] at this
    have hxh : h = x := Option.some_inj.mp this
    subst hxh
    exact absurd (DAY_HOURS_bounds h hx) (by omega)
  · intro hc
    rcases distribute_selected_provenance fd oracleN fuelN hnight f hc with ⟨x, hx, hfx⟩
    have := buildFilesDict_invariant hbuild x f hfx
    rw [hf] at this
    have hxh : h = x := Option.some_inj.mp this
    subst hxh
    exact absurd (NIGHT_HOURS_bounds h hx) (by omega)
  · have hnotin : h ∉ dayRest := by
      intro hc
      have := DAY_HOURS_bounds h (distribute_hours_subset fd oracleD fuelD hday hc)
      omega
    unfold fullCopyDest
    rw [hf]
    show some (decide (h ∈ dayRest)) = some false
    rw [decide_eq_false hnotin]

/-- The categorized file list for the C10 witness: one file in bucket 99, one
in day bucket 7, one in night bucket 22. -/
def allFilesC10 : List String :=
  ["a-b-c-d-99y.jpg", "a-b-c-d-07y.jpg", "a-b-c-d-22y.jpg"]

/-- The bucket dictionary the categorization step builds from `allFilesC10`. -/
def fdC10 : FilesDict :=
  [(99, ["a-b-c-d-99y.jpg"]), (7, ["a-b-c-d-07y.jpg"]), (22, ["a-b-c-d-22y.jpg"])]

/-- Closed witness for C10 at a concrete run: the out-of-range file is copied
to the nighttime directory by the full-copy phase. -/
theorem C10_out_of_range_never_selected_witness :
    fullCopyDest [7] "a-b-c-d-99y.jpg" = some false :=
  (C10_out_of_range_never_selected allFilesC10 fdC10 "a-b-c-d-99y.jpg" 99
    (fun _ => 0) (fun _ => 0) 2 2 1 1
    ["a-b-c-d-07y.jpg"]
    [(6, 0), (8, 0), (9, 0), (10, 0), (11, 0), (12, 0), (13, 0), (14, 0), (15, 0), (16, 0),
      (17, 0), (7, 1)]
    [7]
    ["a-b-c-d-22y.jpg"]
    [(0, 0), (1, 0), (2, 0), (3, 0), (4, 0), (5, 0), (18, 0), (19, 0), (20, 0), (21, 0),
      (23, 0), (22, 1)]
    [22]
    rfl rfl (by decide) rfl rfl).2.2.2

end Classify
